import Mathlib

/-!
# Language_translator: translation memory, rate limiter, batch queue

A shallow embedding of the sequential core of the translator front-end:

* `TranslationMemory.addToMemory`, `searchMemory`, `applyGlossary`
  (`src/script/advanced-features.js`),
* `checkRateLimit` (`src/script/script.js`),
* `BatchTranslator.addToQueue`, `processQueue`, `exportResults`, `toCSV`, `toExcelData`
  (`src/script/advanced-features.js`),
* `QualityScorer.scoreTranslation`, `getStars`, `LanguageDetector.calculateConfidence`,
  `detectScripts`, `BatchTranslator.translateSingle`, `AlternativesGenerator.chunkText`,
  `PronunciationGenerator.generatePronunciation` and its per-language methods
  (`src/script/advanced-features.js`).

JavaScript built-ins whose exact behaviour is irrelevant to the properties are
parameters: `toLowerCase` and `toUpperCase` are arbitrary functions on strings, the values
read from the clock (`Date.now()`, `new Date().toISOString()`) are arguments, and the
network call behind `translateSingle` is an oracle. A global replace with a pattern of
literal characters is modelled by a scan of the text; the regular-expression engine on
any other pattern is a parameter.
-/

namespace LanguageTranslator

/-! ## Translation memory -/

/-- An entry of `TranslationMemory.memory` (the object literal built by `addToMemory`). -/
structure MemoryEntry where
  id : Int
  source : String
  target : String
  sourceLang : String
  targetLang : String
  frequency : Nat
  lastUsed : String
  deriving DecidableEq, Repr

/-- The values `addToMemory` reads from the clock: `Date.now()` for the id, and
`new Date().toISOString()` once for the fresh entry and once for the touched entry. -/
structure DateReads where
  now : Int
  iso : String
  isoTouch : String
  deriving DecidableEq, Repr

/-- The predicate handed to `findIndex` in `addToMemory`:
`m.source.toLowerCase() === source.toLowerCase() && m.sourceLang === sourceLang &&
m.targetLang === targetLang`. -/
def matchesKey (toLowerCase : String → String) (source sourceLang targetLang : String)
    (m : MemoryEntry) : Bool :=
  toLowerCase m.source == toLowerCase source &&
    m.sourceLang == sourceLang && m.targetLang == targetLang

/-- The uniqueness key of an entry: (source lower-cased, sourceLang, targetLang). -/
def entryKey (toLowerCase : String → String) (m : MemoryEntry) : String × String × String :=
  (toLowerCase m.source, m.sourceLang, m.targetLang)

/-- The function `Array.prototype.findIndex`: the first index whose element satisfies `p`;
`none` stands for the result `-1`. -/
def findIndex {α : Type} (p : α → Bool) : List α → Option Nat
  | [] => none
  | x :: xs => if p x then some 0 else (findIndex p xs).map (· + 1)

/-- The constant 500 of `addToMemory`, the maximal number of stored entries. -/
def MEMORY_MAX : Nat := 500

/-- The method `TranslationMemory.addToMemory`, on the `memory` array. -/
def addToMemory (toLowerCase : String → String) (d : DateReads)
    (source target sourceLang targetLang : String) (memory : List MemoryEntry) :
    List MemoryEntry :=
  let entry : MemoryEntry :=
    { id := d.now, source := source, target := target, sourceLang := sourceLang,
      targetLang := targetLang, frequency := 1, lastUsed := d.iso }
  match findIndex (matchesKey toLowerCase source sourceLang targetLang) memory with
  | some existing =>
    match memory[existing]? with
    | some m =>
      memory.set existing { m with frequency := m.frequency + 1, lastUsed := d.isoTouch }
    | none => memory
  | none =>
    let memory1 := entry :: memory
    if memory1.length > MEMORY_MAX then memory1.take MEMORY_MAX else memory1

/-- One `addToMemory` call: its four arguments and its clock reads. -/
structure MemoryCall where
  source : String
  target : String
  sourceLang : String
  targetLang : String
  date : DateReads
  deriving DecidableEq, Repr

/-- A finite sequence of `addToMemory` calls, applied left to right. -/
def addAll (toLowerCase : String → String) (memory : List MemoryEntry) :
    List MemoryCall → List MemoryEntry
  | [] => memory
  | c :: cs =>
    addAll toLowerCase
      (addToMemory toLowerCase c.date c.source c.target c.sourceLang c.targetLang memory) cs

/-- The method `String.prototype.includes`: `q` occurs in `s` as a contiguous substring. -/
def includes (s q : String) : Bool := decide (q.data <:+: s.data)

/-- The method `Array.prototype.sort` with a comparator, a stable sort: `a` is placed before
`b` unless `compare a b > 0`. -/
def sortBy {α : Type} (compare : α → α → Int) (l : List α) : List α :=
  l.insertionSort (fun a b => compare a b ≤ 0)

/-- The method `TranslationMemory.searchMemory`. -/
def searchMemory (toLowerCase : String → String) (query sourceLang targetLang : String)
    (memory : List MemoryEntry) : List MemoryEntry :=
  sortBy (fun a b => (b.frequency : Int) - (a.frequency : Int))
    (memory.filter fun m =>
      includes (toLowerCase m.source) (toLowerCase query) &&
        m.sourceLang == sourceLang && m.targetLang == targetLang)

/-! ## Rate limiter -/

/-- The constant `RATE_LIMIT_MAX` of `script.js`. -/
def RATE_LIMIT_MAX : Nat := 30

/-- The constant `RATE_LIMIT_WINDOW` of `script.js`, in milliseconds. -/
def RATE_LIMIT_WINDOW : Int := 60000

/-- The two module-level variables of the rate limiter. Times are integers of milliseconds
(the values of `Date.now()`); the counter starts at 0 and is only ever incremented. -/
structure RateState where
  rateLimitCount : Nat
  rateLimitResetTime : Int
  deriving DecidableEq, Repr

/-- The function `checkRateLimit` of `script.js`; `now` is the value of `Date.now()`.
Returns the boolean result and the state left behind. -/
def checkRateLimit (now : Int) (s : RateState) : Bool × RateState :=
  let s1 : RateState :=
    if now - s.rateLimitResetTime > RATE_LIMIT_WINDOW then
      { rateLimitCount := 0, rateLimitResetTime := now }
    else s
  if s1.rateLimitCount ≥ RATE_LIMIT_MAX then (false, s1)
  else (true, { s1 with rateLimitCount := s1.rateLimitCount + 1 })

/-- A finite sequence of `checkRateLimit` calls made at the given times, in order:
the list of results and the final state. -/
def checkAll : RateState → List Int → List Bool × RateState
  | s, [] => ([], s)
  | s, now :: rest =>
    let r := checkRateLimit now s
    let rs := checkAll r.2 rest
    (r.1 :: rs.1, rs.2)

/-- The number of calls that returned `true` among the calls whose time lies in the span
`[a, a + RATE_LIMIT_WINDOW]`, given the call times and the results call by call. -/
def allowedInSpan (a : Int) (times : List Int) (results : List Bool) : Nat :=
  ((times.zip results).filter
    (fun p => decide (a ≤ p.1) && decide (p.1 ≤ a + RATE_LIMIT_WINDOW) && p.2)).length

/-- A burst at a window boundary: 30 calls at time 60000 and 30 calls at time 60001. -/
def burstTimes : List Int := List.replicate 30 60000 ++ List.replicate 30 60001

/-! ## Batch translation -/

/-- An item of `BatchTranslator.queue`. `result` is `null` until a translation is stored;
the property `error` is absent (`none`) until a failure is stored. -/
structure BatchItem where
  id : Int
  text : String
  sourceLang : String
  targetLang : String
  status : String
  result : Option String
  error : Option String
  deriving DecidableEq, Repr

/-- The fields of a `BatchTranslator` object. -/
structure BatchTranslator where
  queue : List BatchItem
  results : List BatchItem
  isProcessing : Bool
  deriving DecidableEq, Repr

/-- The method `BatchTranslator.addToQueue`; `dateNow index` is the value of `Date.now()`
read while mapping the element at `index`. -/
def addToQueue (dateNow : Nat → Int) (texts : List String) (sourceLang targetLang : String)
    (b : BatchTranslator) : BatchTranslator :=
  { b with
    queue := texts.enum.map fun p =>
      { id := dateNow p.1 + p.1, text := p.2, sourceLang := sourceLang,
        targetLang := targetLang, status := "pending", result := none, error := none } }

/-- What `processQueue` does to the outside world, in order: a call of `translateSingle`
for the queue item at `index`, a call of the `onProgress` callback, a wait of `ms`
milliseconds (`setTimeout`), a call of the `onComplete` callback. -/
inductive Event where
  | translateSingle (index : Nat) (text sourceLang targetLang : String)
  | onProgress (current total : Nat)
  | setTimeout (ms : Nat)
  | onComplete (results : List BatchItem)
  deriving DecidableEq, Repr

/-- The outcome of `translateSingle` at its `index`-th use in a run: the translation, or
the `message` of the error it throws (a rejected `fetch`, a response that is not ok, a
response that cannot be decoded). -/
abbrev Translate := Nat → String → String → String → Except String String

/-- The callback `onProgress`: it returns, or throws an error with the given `message`. -/
abbrev OnProgress := Nat → Nat → Except String Unit

/-- What one iteration of the loop of `processQueue` leaves behind. -/
structure Step where
  item : BatchItem
  pushed : List BatchItem
  events : List Event
  deriving DecidableEq, Repr

/-- The body of the `for` loop of `processQueue` for the item at index `i` of a queue of
`total` items: the `try` block up to the first throw, then the `catch` block if something
was thrown. `item` is the queue item as mutated, `pushed` the copies appended to
`results`. -/
def processItem (translateSingle : Translate) (onProgress : OnProgress) (total i : Nat)
    (item : BatchItem) : Step :=
  let call := Event.translateSingle i item.text item.sourceLang item.targetLang
  match translateSingle i item.text item.sourceLang item.targetLang with
  | .ok translation =>
    let item1 : BatchItem := { item with status := "completed", result := some translation }
    match onProgress (i + 1) total with
    | .ok _ =>
      { item := item1, pushed := [item1],
        events := [call, Event.onProgress (i + 1) total, Event.setTimeout 500] }
    | .error message =>
      let item2 : BatchItem := { item1 with status := "failed", error := some message }
      { item := item2, pushed := [item1, item2],
        events := [call, Event.onProgress (i + 1) total] }
  | .error message =>
    let item1 : BatchItem := { item with status := "failed", error := some message }
    { item := item1, pushed := [item1], events := [call] }

/-- The `for` loop of `processQueue` from index `i` on, over the items not yet visited:
the queue items as mutated, the copies appended to `results`, and the events. -/
def processLoop (translateSingle : Translate) (onProgress : OnProgress) (total : Nat) :
    Nat → List BatchItem → List BatchItem × List BatchItem × List Event
  | _, [] => ([], [], [])
  | i, item :: rest =>
    let s := processItem translateSingle onProgress total i item
    let r := processLoop translateSingle onProgress total (i + 1) rest
    (s.item :: r.1, s.pushed ++ r.2.1, s.events ++ r.2.2)

/-- The method `BatchTranslator.processQueue`: the object after the run and the events
of the run. -/
def processQueue (translateSingle : Translate) (onProgress : OnProgress)
    (b : BatchTranslator) : BatchTranslator × List Event :=
  let r := processLoop translateSingle onProgress b.queue.length 0 b.queue
  ({ queue := r.1, results := r.2.1, isProcessing := false },
    r.2.2 ++ [Event.onComplete r.2.1])

/-- The arguments of the `onProgress` calls of a run, in order. -/
def progressCalls : List Event → List (Nat × Nat)
  | [] => []
  | Event.onProgress current total :: rest => (current, total) :: progressCalls rest
  | _ :: rest => progressCalls rest

/-- The `results` lists handed to `onComplete` during a run, in order. -/
def completeCalls : List Event → List (List BatchItem)
  | [] => []
  | Event.onComplete results :: rest => results :: completeCalls rest
  | _ :: rest => completeCalls rest

/-- What `processQueue` is specified to leave for one item: status `completed` with the
translation as result on success, status `failed` with the error message on failure. -/
def expectedResult (translateSingle : Translate) (i : Nat) (item : BatchItem) : BatchItem :=
  match translateSingle i item.text item.sourceLang item.targetLang with
  | .ok translation => { item with status := "completed", result := some translation }
  | .error message => { item with status := "failed", error := some message }

/-! ## Replacing the matches of a literal pattern

`String.prototype.replace` with a global regular expression whose pattern is a sequence of
literal characters, optionally between two `\b` assertions, and with a string as
replacement. Strings are sequences of Unicode characters; a character outside the basic
plane is two UTF-16 units in JavaScript, neither of which is a word character. -/

/-- The characters that have a meaning of their own in a pattern (`SyntaxCharacter`):
`^ $ \ . * + ? ( ) [ ] { } |`, given by their code points. -/
def isSyntaxCharacter (c : Char) : Bool :=
  decide (c.toNat ∈ [94, 36, 92, 46, 42, 43, 63, 40, 41, 91, 93, 123, 125, 124])

/-- The word characters of `\b`: the letters a to z and A to Z, the digits and `_`. -/
def isWordChar (c : Char) : Bool :=
  decide (97 ≤ c.toNat ∧ c.toNat ≤ 122) || decide (65 ≤ c.toNat ∧ c.toNat ≤ 90) ||
    decide (48 ≤ c.toNat ∧ c.toNat ≤ 57) || decide (c.toNat = 95)

/-- Whether the position between the characters `a` and `b` (absent at the ends of the
text) is a word boundary: exactly one of the two is a word character. -/
def isBoundary (a b : Option Char) : Bool :=
  (a.map isWordChar).getD false != (b.map isWordChar).getD false

/-- Whether the characters of `term` match the beginning of `rest`, both canonicalized. -/
def prefixMatch (canonicalize : Char → Char) : List Char → List Char → Bool
  | [], _ => true
  | _ :: _, [] => false
  | t :: ts, c :: cs => canonicalize t == canonicalize c && prefixMatch canonicalize ts cs

/-- Whether the pattern matches at the position that has `before` to its left and `rest`
to its right. With `bounded` the pattern is `\b`, the term, `\b`. -/
def matchesAt (bounded : Bool) (canonicalize : Char → Char) (term before rest : List Char) :
    Bool :=
  prefixMatch canonicalize term rest &&
    (!bounded ||
      (isBoundary before.getLast? rest.head? &&
        isBoundary (((rest.take term.length).getLast?).orElse fun _ => before.getLast?)
          (rest.drop term.length).head?))

/-- The expansion of a replacement string for a match without capture groups
(`GetSubstitution`): `$$` is `$`, `$&` the matched text, a dollar sign with a backquote
the text before the match, a dollar sign with an apostrophe the text after it; every
other character stands for itself. -/
def getSubstitution (isMatched before after : List Char) : List Char → List Char
  | [] => []
  | [c] => [c]
  | c :: d :: rest =>
    if c.toNat = 36 then
      if d.toNat = 36 then c :: getSubstitution isMatched before after rest
      else if d.toNat = 38 then isMatched ++ getSubstitution isMatched before after rest
      else if d.toNat = 96 then before ++ getSubstitution isMatched before after rest
      else if d.toNat = 39 then after ++ getSubstitution isMatched before after rest
      else c :: getSubstitution isMatched before after (d :: rest)
    else c :: getSubstitution isMatched before after (d :: rest)

/-- The scan of a global replace. `subst isMatched before after` is what is put in place
of a match; `skip` counts the characters of the current match still to be passed;
`before` is the text to the left of the current position. After an empty match the scan
moves on by one character. -/
def replaceLoop (bounded : Bool) (canonicalize : Char → Char) (term : List Char)
    (subst : List Char → List Char → List Char → List Char) :
    Nat → List Char → List Char → List Char
  | 0, before, [] =>
    if matchesAt bounded canonicalize term before [] then subst [] before [] else []
  | _ + 1, _, [] => []
  | skip + 1, before, c :: rest =>
    replaceLoop bounded canonicalize term subst skip (before ++ [c]) rest
  | 0, before, c :: rest =>
    if matchesAt bounded canonicalize term before (c :: rest) then
      subst ((c :: rest).take term.length) before ((c :: rest).drop term.length) ++
        (if term.length = 0 then
          c :: replaceLoop bounded canonicalize term subst 0 (before ++ [c]) rest
        else replaceLoop bounded canonicalize term subst (term.length - 1) (before ++ [c]) rest)
    else c :: replaceLoop bounded canonicalize term subst 0 (before ++ [c]) rest

/-- The call `text.replace(regex, replacement)` for a global regex with a literal
pattern. -/
def replaceLiteral (bounded : Bool) (canonicalize : Char → Char)
    (term replacement text : String) : String :=
  String.mk (replaceLoop bounded canonicalize term.data
    (fun isMatched before after => getSubstitution isMatched before after replacement.data)
    0 [] text.data)

deriving instance DecidableEq for Except

/-! ## Glossary -/

/-- An entry of `TranslationMemory.glossary` (the object literal built by
`addToGlossary`). -/
structure GlossaryEntry where
  id : Int
  term : String
  translation : String
  sourceLang : String
  targetLang : String
  createdAt : String
  deriving DecidableEq, Repr

/-- The regular-expression engine on the patterns that are not modelled here: given the
pattern source, the flags, the replacement and the text, `text.replace(new RegExp(source,
flags), replacement)` returns a string or throws (for instance a `SyntaxError` for an
invalid pattern). -/
abbrev RegExpReplace := String → String → String → String → Except String String

/-- Whether a glossary term contains no `SyntaxCharacter`, so that the pattern built from
it is the literal term between two `\b` assertions. -/
def isLiteralTerm (term : String) : Bool := term.data.all fun c => !isSyntaxCharacter c

/-- One pass of `applyGlossary`: the pattern source is `\b`, the term as it is, `\b`, the
flags are `gi`, and the translation is the replacement string. `canonicalize` is the
case folding of the flag `i`; `regExpReplace` answers for the terms with a
`SyntaxCharacter`. -/
def replaceTerm (regExpReplace : RegExpReplace) (canonicalize : Char → Char)
    (term translation text : String) : Except String String :=
  if isLiteralTerm term then .ok (replaceLiteral true canonicalize term translation text)
  else regExpReplace ("\\b" ++ term ++ "\\b") "gi" translation text

/-- The method `TranslationMemory.applyGlossary`. -/
def applyGlossary (regExpReplace : RegExpReplace) (canonicalize : Char → Char)
    (text sourceLang targetLang : String) (glossary : List GlossaryEntry) :
    Except String String :=
  let relevantTerms :=
    glossary.filter fun g => g.sourceLang == sourceLang && g.targetLang == targetLang
  relevantTerms.foldlM
    (fun result g => replaceTerm regExpReplace canonicalize g.term g.translation result) text


/-- Every word of a text, a maximal run of word characters, satisfies `P`; the text is
read from a position that is not inside a word. -/
inductive EachWord (P : List Char → Prop) : List Char → Prop where
  | nil : EachWord P []
  | gap (c : Char) (rest : List Char) :
      isWordChar c = false → EachWord P rest → EachWord P (c :: rest)
  | word (w rest : List Char) :
      w ≠ [] → (∀ c ∈ w, isWordChar c = true) →
      (∀ c, rest.head? = some c → isWordChar c = false) →
      P w → EachWord P rest → EachWord P (w ++ rest)

/-- A single word: a non-empty string of word characters. -/
def isWord (s : String) : Bool := !s.data.isEmpty && s.data.all isWordChar

/-- Whether the character to the left of the position is a word character. -/
def prevIsWord (before : List Char) : Bool := (before.getLast?.map isWordChar).getD false

/-- The replacement of every whole-word, case-insensitive occurrence of `term` in `text`
by `translation`, the translation taken as it is. -/
def replaceWholeWord (canonicalize : Char → Char) (term translation text : String) : String :=
  String.mk (replaceLoop true canonicalize term.data (fun _ _ _ => translation.data)
    0 [] text.data)

/-- The glossary as specified: the entries of the language pair in store order, each
replacing the whole-word, case-insensitive occurrences of its term by its translation in
the output of the previous pass. -/
def applyGlossarySpec (canonicalize : Char → Char) (text sourceLang targetLang : String)
    (glossary : List GlossaryEntry) : String :=
  (glossary.filter fun g => g.sourceLang == sourceLang && g.targetLang == targetLang).foldl
    (fun result g => replaceWholeWord canonicalize g.term g.translation result) text

/-- No term of the language pair is a substring of another term of that pair. -/
def termsDisjoint (sourceLang targetLang : String) (glossary : List GlossaryEntry) : Prop :=
  (glossary.filter fun g => g.sourceLang == sourceLang && g.targetLang == targetLang).Pairwise
    fun g h => ¬ g.term.data <:+: h.term.data ∧ ¬ h.term.data <:+: g.term.data

instance (sourceLang targetLang : String) (glossary : List GlossaryEntry) :
    Decidable (termsDisjoint sourceLang targetLang glossary) := by
  unfold termsDisjoint
  infer_instance

/-! ## Export of batch results -/

/-- An element of the array `data` of `exportResults`. -/
structure ExportRow where
  original : String
  translation : String
  status : String
  deriving DecidableEq, Repr

/-- The expression `r.result || 'Failed'`: the result, or `Failed` when it is `null` or
the empty string. -/
def resultOrFailed (r : BatchItem) : String :=
  match r.result with
  | some t => if t = "" then "Failed" else t
  | none => "Failed"

/-- The array `data` of `exportResults`. -/
def exportData (results : List BatchItem) : List ExportRow :=
  results.map fun r =>
    { original := r.text, translation := resultOrFailed r, status := r.status }

/-- The call `s.replace(/"/g, '""')` of `toCSV`. -/
def replaceQuotes (s : String) : String := replaceLiteral false id "\"" "\"\"" s

/-- The method `BatchTranslator.toCSV`. -/
def toCSV (data : List ExportRow) : String :=
  let headers := "Original,Translation,Status\n"
  let rows := "\n".intercalate (data.map fun d =>
    "\"" ++ replaceQuotes d.original ++ "\",\"" ++ replaceQuotes d.translation ++ "\",\"" ++
      d.status ++ "\"")
  headers ++ rows

/-- The method `BatchTranslator.toExcelData`. -/
def toExcelData (data : List ExportRow) : String :=
  let headers := "Original\tTranslation\tStatus\n"
  let rows := "\n".intercalate (data.map fun d =>
    d.original ++ "\t" ++ d.translation ++ "\t" ++ d.status)
  headers ++ rows

/-- The method `BatchTranslator.exportResults`, on the `results` array; `jsonStringify`
stands for `JSON.stringify(data, null, 2)`. -/
def exportResults (jsonStringify : List ExportRow → String) (format : String)
    (results : List BatchItem) : String :=
  let data := exportData results
  if format = "json" then jsonStringify data
  else if format = "csv" then toCSV data
  else if format = "xlsx" then toExcelData data
  else "\n".intercalate (data.map fun d => d.original ++ "\t" ++ d.translation)

/-- A string with every double-quote character replaced by two double-quote characters. -/
def doubleQuotes (s : String) : String :=
  String.mk (s.data.flatMap fun c => if c = '"' then ['"', '"'] else [c])

/-! ## Quality score -/

/-- The property `length` of a string: its number of UTF-16 units, two for a character
outside the basic plane. -/
def utf16Length (s : String) : Nat :=
  (s.data.map fun c => if c.toNat < 65536 then 1 else 2).sum

/-- The characters matched by `\s`: the white space and line terminator characters. -/
def isWhiteSpace (c : Char) : Bool :=
  decide (c.toNat ∈ [9, 10, 11, 12, 13, 32, 160, 5760, 8232, 8233, 8239, 8287, 12288, 65279]) ||
    decide (8192 ≤ c.toNat ∧ c.toNat ≤ 8202)

/-- The number of pieces of `split(/\s+/)` from the current position on: one, and one more
for every run of white space that starts; `inRun` tells that the previous character was
white space. -/
def splitCountFrom : Bool → List Char → Nat
  | _, [] => 1
  | inRun, c :: rest =>
    if isWhiteSpace c then (if inRun then 0 else 1) + splitCountFrom true rest
    else splitCountFrom false rest

/-- The expression `s.split(/\s+/).length`. -/
def wordCount (s : String) : Nat := splitCountFrom false s.data

/-- The number of words from the current position on: the maximal runs of characters
that are not white space; `inWord` tells that the previous character was part of a
word. -/
def wordsFrom : Bool → List Char → Nat
  | _, [] => 0
  | inWord, c :: rest =>
    if isWhiteSpace c then wordsFrom false rest
    else (if inWord then 0 else 1) + wordsFrom true rest

/-- The number of white-space-separated words of a string. -/
def numberOfWords (s : String) : Nat := wordsFrom false s.data

/-- The expression `(s.match(/[.,!?;:]/g) || []).length`. -/
def punctCount (s : String) : Nat :=
  (s.data.filter fun c => decide (c ∈ ['.', ',', '!', '?', ';', ':'])).length

/-- The test `s[0] === s[0].toUpperCase()`; `none` when `s` is empty (`s[0]` is
`undefined` and the call throws). The first unit of a character outside the basic plane is
a surrogate, which is its own upper-casing. -/
def firstIsOwnUpperCase (toUpperCase : String → String) (s : String) : Option Bool :=
  match s.data with
  | [] => none
  | c :: _ =>
    if c.toNat < 65536 then some (toUpperCase (String.singleton c) == String.singleton c)
    else some true

/-- The condition of the capitalization check, `&&` evaluating its right side only when
the left side is true; `none` when it throws. -/
def capitalizationCheck (toUpperCase : String → String) (original translation : String) :
    Option Bool :=
  match firstIsOwnUpperCase toUpperCase original with
  | none => none
  | some false => some false
  | some true => firstIsOwnUpperCase toUpperCase translation

/-- The length bonus of `scoreTranslation`. The quotient of the two lengths is a rational
number here; for lengths of strings, comparing the double quotient with 0.5 and 2 gives the
same answers. -/
def lengthBonus (original translation : String) : Nat :=
  let lengthRatio : ℚ := (utf16Length translation : ℚ) / (utf16Length original : ℚ)
  if lengthRatio > 1 / 2 ∧ lengthRatio < 2 then 10 else 0

/-- The word-count bonus of `scoreTranslation`, with the rational quotient of the two
counts; comparing the double quotient with the doubles 0.6 and 1.5 gives the same
answers as comparing the rational quotient with 3/5 and 3/2. -/
def wordBonus (original translation : String) : Nat :=
  let wordRatio : ℚ := (wordCount translation : ℚ) / (wordCount original : ℚ)
  if wordRatio > 3 / 5 ∧ wordRatio < 3 / 2 then 10 else 0

/-- The punctuation bonus of `scoreTranslation`. -/
def punctBonus (original translation : String) : Nat :=
  if ((punctCount original : Int) - (punctCount translation : Int)).natAbs ≤ 2 then 5 else 0

/-- The method `QualityScorer.scoreTranslation`; `none` when it throws (an empty original,
or an empty translation once the original has passed the capitalization test). -/
def scoreTranslation (toUpperCase : String → String)
    (original translation sourceLang targetLang : String) : Option Nat :=
  let score := 70
  let score := score + lengthBonus original translation
  let score := score + wordBonus original translation
  let score := score + punctBonus original translation
  match capitalizationCheck toUpperCase original translation with
  | none => none
  | some true => some (min 100 (score + 5))
  | some false => some (min 100 score)

/-- Whether a string begins with an upper-case character: a character that is its own
upper-casing and not its own lower-casing. -/
def beginsUpperCase (toUpperCase toLowerCase : String → String) (s : String) : Bool :=
  match s.data with
  | [] => false
  | c :: _ =>
    toUpperCase (String.singleton c) == String.singleton c &&
      toLowerCase (String.singleton c) != String.singleton c

/-- The score as specified: 70 and the four bonuses, the capitalization bonus given
exactly when both strings begin with an upper-case character; at most 100. -/
def scoreSpec (toUpperCase toLowerCase : String → String) (original translation : String) :
    Nat :=
  min 100 (70 + lengthBonus original translation + wordBonus original translation +
    punctBonus original translation +
    (if beginsUpperCase toUpperCase toLowerCase original ∧
        beginsUpperCase toUpperCase toLowerCase translation then 5 else 0))

/-- The method `QualityScorer.getStars`, on a rational score. -/
def getStars (score : ℚ) : Nat :=
  if score ≥ 90 then 5
  else if score ≥ 75 then 4
  else if score ≥ 60 then 3
  else if score ≥ 45 then 2
  else 1

/-! ## Language detection confidence -/

/-- The value `char.charCodeAt(0)` for a character `char` of the iteration
`for (const char of text)`: the code point of a character of the basic plane, the high
surrogate of any other character. -/
def charCodeAt0 (c : Char) : Nat :=
  if c.toNat < 65536 then c.toNat else 55296 + (c.toNat - 65536) / 1024

/-- The chain of range tests of `detectScripts` on one code: the name that is added to
the set, if any. -/
def scriptOfCode (code : Nat) : Option String :=
  if code ≥ 0x0041 ∧ code ≤ 0x007A then some "latin"
  else if code ≥ 0x0400 ∧ code ≤ 0x04FF then some "cyrillic"
  else if code ≥ 0x0600 ∧ code ≤ 0x06FF then some "arabic"
  else if code ≥ 0x4E00 ∧ code ≤ 0x9FFF then some "cjk"
  else none

/-- The method `Set.prototype.add` on a set kept as the list of its elements in insertion
order. -/
def setAdd (scripts : List String) (name : String) : List String :=
  if name ∈ scripts then scripts else scripts ++ [name]

/-- The method `LanguageDetector.detectScripts`. -/
def detectScripts (text : String) : List String :=
  text.data.foldl
    (fun scripts char =>
      match scriptOfCode (charCodeAt0 char) with
      | some name => setAdd scripts name
      | none => scripts)
    []

/-- The value of the variable `confidence` of `calculateConfidence` when the `return`
statement is reached. -/
def confidenceBeforeClamp (text : String) : Int :=
  let confidence : Int := 70
  let confidence := if utf16Length text > 100 then confidence + 10 else confidence
  let confidence := if utf16Length text > 300 then confidence + 10 else confidence
  let confidence := if utf16Length text < 20 then confidence - 20 else confidence
  let scripts := detectScripts text
  if scripts.length > 1 then confidence - 15 else confidence

/-- The method `LanguageDetector.calculateConfidence`. -/
def calculateConfidence (text detectedLang : String) : Int :=
  max 0 (min 100 (confidenceBeforeClamp text))

/-! ## The translation request -/

/-- A response of `fetch` of the expected shape. `ok` is `res.ok`; `json` is the outcome of
`res.json()`, reduced to what the code reads: the segments of `json[0]`, each segment the
list of its elements, an element being a string or `null`; or the message of the error
thrown when the body cannot be decoded. -/
structure Response where
  ok : Bool
  json : Except String (List (List (Option String)))
  deriving DecidableEq, Repr

/-- The address requested by `translateSingle` (and by `translate` of `script.js`). -/
def requestUrl (encodeURIComponent : String → String)
    (text sourceLang targetLang : String) : String :=
  "https://translate.googleapis.com/translate_a/single?client=gtx&sl=" ++ sourceLang ++
    "&tl=" ++ targetLang ++ "&dt=t&q=" ++ encodeURIComponent text

/-- What `join` makes of the value `a[0]` of a segment `a`: the string itself, and the
empty string for `null` and for `undefined` (an empty segment). -/
def fragmentOf (a : List (Option String)) : String :=
  match a.head? with
  | some (some fragment) => fragment
  | _ => ""

/-- The method `BatchTranslator.translateSingle`; `fetch` gives for an address the
response, or the message of the error with which the request is rejected. -/
def translateSingle (encodeURIComponent : String → String)
    (fetch : String → Except String Response) (text sourceLang targetLang : String) :
    Except String String :=
  match fetch (requestUrl encodeURIComponent text sourceLang targetLang) with
  | .error message => .error message
  | .ok res =>
    if !res.ok then .error "Translation failed"
    else
      match res.json with
      | .error message => .error message
      | .ok segments => .ok (String.join (segments.map fragmentOf))

/-! ## Chunks of a text -/

/-- The call `text.split(' ')`, on the characters of the text. -/
def splitSpace : List Char → List (List Char)
  | [] => [[]]
  | c :: rest =>
    if c = ' ' then [] :: splitSpace rest
    else
      match splitSpace rest with
      | w :: ws => (c :: w) :: ws
      | [] => [[c]]

/-- The call `words.join(' ')`. -/
def joinSpace : List (List Char) → List Char
  | [] => []
  | [w] => w
  | w :: v :: rest => w ++ ' ' :: joinSpace (v :: rest)

/-- The `for` loop of `chunkText` from the index `i` on, with the chunks pushed so far;
`none` when the fuel is used up before the loop ends. -/
def chunkLoop (words : List (List Char)) (chunkSize : Nat) :
    Nat → Nat → List (List Char) → Option (List (List Char))
  | 0, _, _ => none
  | fuel + 1, i, chunks =>
    if i < words.length then
      chunkLoop words chunkSize fuel (i + chunkSize)
        (chunks ++ [joinSpace ((words.drop i).take chunkSize)])
    else some chunks

/-- The method `AlternativesGenerator.chunkText`, with fuel for its loop. -/
def chunkText (fuel : Nat) (text : String) : Option (List String) :=
  let words := splitSpace text.data
  let chunkSize := (words.length + 1) / 2
  (chunkLoop words chunkSize fuel 0 []).map fun chunks => chunks.map String.mk

/-! ## Pronunciation -/

/-- The method `PronunciationGenerator.englishPronunciation`. -/
def englishPronunciation (toLowerCase : String → String) (text : String) : String :=
  replaceLiteral false id "sh" "ʃ"
    (replaceLiteral false id "ch" "tʃ"
      (replaceLiteral false id "th" "θ"
        (replaceLiteral false id "tion" "shun" (toLowerCase text))))

/-- The method `PronunciationGenerator.spanishPronunciation`. -/
def spanishPronunciation (toLowerCase : String → String) (text : String) : String :=
  replaceLiteral false id "ñ" "ny" (replaceLiteral false id "ll" "y" (toLowerCase text))

/-- The method `PronunciationGenerator.frenchPronunciation`. -/
def frenchPronunciation (toLowerCase : String → String) (text : String) : String :=
  replaceLiteral false id "oi" "wa" (replaceLiteral false id "eau" "o" (toLowerCase text))

/-- The method `PronunciationGenerator.germanPronunciation`. -/
def germanPronunciation (toLowerCase : String → String) (text : String) : String :=
  replaceLiteral false id "sch" "ʃ" (replaceLiteral false id "ch" "χ" (toLowerCase text))

/-- The methods for Japanese, Chinese, Arabic and Russian, and the fallback of
`generatePronunciation`: the text between square brackets. -/
def bracketed (text : String) : String := "[" ++ text ++ "]"

/-- The keys of the object literal `pronunciationMap`. -/
def pronunciationKeys : List String := ["en", "es", "fr", "de", "ja", "zh-CN", "ar", "ru"]

/-- The names of the properties that every object inherits, which the lookup
`pronunciationMap[language]` finds as well. -/
def inheritedKeys : List String :=
  ["constructor", "__defineGetter__", "__defineSetter__", "hasOwnProperty",
    "__lookupGetter__", "__lookupSetter__", "isPrototypeOf", "propertyIsEnumerable",
    "toString", "valueOf", "__proto__", "toLocaleString"]

/-- The method `PronunciationGenerator.generatePronunciation`. `inheritedCall name text`
is what `generator.call(this, text)` gives when `generator` is the inherited property
`name`: a string, or the message of the error thrown. -/
def generatePronunciation (toLowerCase : String → String)
    (inheritedCall : String → String → Except String String) (text language : String) :
    Except String String :=
  if language = "en" then .ok (englishPronunciation toLowerCase text)
  else if language = "es" then .ok (spanishPronunciation toLowerCase text)
  else if language = "fr" then .ok (frenchPronunciation toLowerCase text)
  else if language = "de" then .ok (germanPronunciation toLowerCase text)
  else if language = "ja" then .ok (bracketed text)
  else if language = "zh-CN" then .ok (bracketed text)
  else if language = "ar" then .ok (bracketed text)
  else if language = "ru" then .ok (bracketed text)
  else if language ∈ inheritedKeys then inheritedCall language text
  else .ok (bracketed text)

/-- The global replacement of a literal pattern by a replacement taken as it is, on the
characters of a text. -/
def plainReplace (term replacement text : List Char) : List Char :=
  replaceLoop false id term (fun _ _ _ => replacement) 0 [] text

/-- The four substitutions of `englishPronunciation`, on the characters of a text that is
in lower case already. -/
def englishSubstitutions (text : List Char) : List Char :=
  plainReplace "sh".data "ʃ".data
    (plainReplace "ch".data "tʃ".data
      (plainReplace "th".data "θ".data (plainReplace "tion".data "shun".data text)))

/-! ## Sample data -/

/-- A lower-casing of the letters A to Z, used where a concrete `toLowerCase` is needed. -/
def asciiLower (s : String) : String := String.mk (s.data.map Char.toLower)

/-- Sample clock reads. -/
def sampleDate : DateReads := { now := 1700000000000, iso := "t1", isoTouch := "t2" }

/-- A sample store of two entries. -/
def sampleMemory : List MemoryEntry :=
  [ { id := 1, source := "Good morning", target := "Buenos dias", sourceLang := "en",
      targetLang := "es", frequency := 3, lastUsed := "t0" },
    { id := 2, source := "Hello", target := "Bonjour", sourceLang := "en",
      targetLang := "fr", frequency := 1, lastUsed := "t0" } ]

/-- A sample sequence of `addToMemory` calls: a new key, the same key in another case,
and a key of the sample store. -/
def sampleCalls : List MemoryCall :=
  [ { source := "Thanks", target := "Gracias", sourceLang := "en", targetLang := "es",
      date := sampleDate },
    { source := "THANKS", target := "Gracias", sourceLang := "en", targetLang := "es",
      date := sampleDate },
    { source := "hello", target := "Salut", sourceLang := "en", targetLang := "fr",
      date := sampleDate } ]

/-- A translator whose queue is what `addToQueue(["a", "b", "c"], "en", "es")` builds. -/
def abcBatch : BatchTranslator :=
  addToQueue (fun _ => 1700000000000) ["a", "b", "c"] "en" "es"
    { queue := [], results := [], isProcessing := false }

/-- A translation client that fails only on the text "b". -/
def failOnB : Translate := fun _ text _ _ =>
  if text = "b" then .error "Translation failed" else .ok ("<" ++ text ++ ">")

/-- An `onProgress` callback that returns normally. -/
def progressOk : OnProgress := fun _ _ => .ok ()

/-- An upper-casing of the letters a to z, used where a concrete `toUpperCase` is
needed. -/
def asciiUpper (s : String) : String := String.mk (s.data.map Char.toUpper)

/-- An engine that rejects every pattern handed to it. -/
def rejectingEngine : RegExpReplace := fun pattern _ _ _ =>
  .error ("Invalid regular expression: /" ++ pattern ++ "/")

/-- A glossary of two entries with the disjoint terms b and a. -/
def chainGlossary : List GlossaryEntry :=
  [ { id := 2, term := "b", translation := "c", sourceLang := "en", targetLang := "es",
      createdAt := "t1" },
    { id := 1, term := "a", translation := "b", sourceLang := "en", targetLang := "es",
      createdAt := "t0" } ]

/-- A glossary whose translation contains the replacement pattern of the matched text. -/
def dollarGlossary : List GlossaryEntry :=
  [ { id := 1, term := "cat", translation := "$&s", sourceLang := "en", targetLang := "es",
      createdAt := "t0" } ]

/-- A glossary whose term contains characters with a meaning in a pattern. -/
def plusGlossary : List GlossaryEntry :=
  [ { id := 1, term := "C++", translation := "Cpp", sourceLang := "en", targetLang := "es",
      createdAt := "t0" } ]

/-- A glossary of two entries for the pair en, es whose terms and translations are single
words, no translation being a term. -/
def wordsGlossary : List GlossaryEntry :=
  [ { id := 2, term := "hello", translation := "hola", sourceLang := "en", targetLang := "es",
      createdAt := "t1" },
    { id := 1, term := "world", translation := "mundo", sourceLang := "en",
      targetLang := "es", createdAt := "t0" } ]

/-- A glossary of two entries with the disjoint terms `c d` and `a b`, each of two words,
and translations that are no terms. -/
def phraseGlossary : List GlossaryEntry :=
  [ { id := 2, term := "c d", translation := "x", sourceLang := "en", targetLang := "es",
      createdAt := "t1" },
    { id := 1, term := "a b", translation := "c", sourceLang := "en", targetLang := "es",
      createdAt := "t0" } ]

/-- A batch result with double quotes in the original and in the translation. -/
def quotedResult : BatchItem :=
  { id := 1, text := "He said \"hi\"", sourceLang := "en", targetLang := "es",
    status := "completed", result := some "Él dijo \"hola\"", error := none }

/-- A stand-in for `JSON.stringify`, used where a concrete one is needed. -/
def sampleStringify : List ExportRow → String := fun data => toString data.length

/-- A `fetch` that answers every request with two segments, the second with more than one
element. -/
def sampleFetch : String → Except String Response := fun _ =>
  .ok { ok := true, json := .ok [[some "Hola ", some "Hello "], [some "mundo", none]] }

/-- A `fetch` that answers every request with a response that is not ok. -/
def failingFetch : String → Except String Response := fun _ =>
  .ok { ok := false, json := .error "Unexpected token" }

/-- A stand-in for the call of an inherited property. -/
def sampleInheritedCall : String → String → Except String String := fun name _ =>
  .error (name ++ " is not a pronunciation method")

/-! ### Lemmas on `findIndex` -/

theorem findIndex_eq_none {α : Type} (p : α → Bool) (l : List α) :
    findIndex p l = none ↔ ∀ x ∈ l, p x = false := by
  induction l with
  | nil => simp [findIndex]
  | cons x xs ih =>
    by_cases hx : p x = true
    · simp [findIndex, hx]
    · simp [findIndex, hx, ih]

theorem findIndex_some {α : Type} (p : α → Bool) (l : List α) (i : Nat)
    (h : findIndex p l = some i) :
    ∃ x, l[i]? = some x ∧ p x = true ∧ ∀ j y, j < i → l[j]? = some y → p y = false := by
  induction l generalizing i with
  | nil => simp [findIndex] at h
  | cons x xs ih =>
    by_cases hx : p x = true
    · simp [findIndex, hx] at h
      subst h
      exact ⟨x, by simp, hx, by intro j y hj; omega⟩
    · simp [findIndex, hx] at h
      obtain ⟨k, hk, rfl⟩ := h
      obtain ⟨y, hy, hpy, hlt⟩ := ih k hk
      refine ⟨y, by simpa using hy, hpy, ?_⟩
      intro j z hj hz
      cases j with
      | zero =>
        simp at hz
        subst hz
        simpa using hx
      | succ j =>
        simp at hz
        exact hlt j z (by omega) hz

theorem findIndex_isSome_of_mem {α : Type} (p : α → Bool) (l : List α) (x : α)
    (hx : x ∈ l) (hp : p x = true) : ∃ i, findIndex p l = some i := by
  cases h : findIndex p l with
  | some i => exact ⟨i, rfl⟩
  | none =>
    have := (findIndex_eq_none p l).1 h x hx
    simp [hp] at this

/-! ### Lemmas on `addToMemory` -/

theorem matchesKey_iff (toLowerCase : String → String) (source sourceLang targetLang : String)
    (m : MemoryEntry) :
    matchesKey toLowerCase source sourceLang targetLang m = true ↔
      entryKey toLowerCase m = (toLowerCase source, sourceLang, targetLang) := by
  simp [matchesKey, entryKey, and_assoc]

theorem matchesKey_eq_false_iff (toLowerCase : String → String)
    (source sourceLang targetLang : String) (m : MemoryEntry) :
    matchesKey toLowerCase source sourceLang targetLang m = false ↔
      entryKey toLowerCase m ≠ (toLowerCase source, sourceLang, targetLang) := by
  have h := matchesKey_iff toLowerCase source sourceLang targetLang m
  constructor
  · intro hf hk
    rw [h.2 hk] at hf
    exact Bool.noConfusion hf
  · intro hne
    cases hb : matchesKey toLowerCase source sourceLang targetLang m with
    | false => rfl
    | true => exact absurd (h.1 hb) hne

/-- When no entry matches, `addToMemory` puts the fresh entry in front and keeps the first
`MEMORY_MAX` entries. -/
theorem addToMemory_of_none (toLowerCase : String → String) (d : DateReads)
    (source target sourceLang targetLang : String) (memory : List MemoryEntry)
    (h : findIndex (matchesKey toLowerCase source sourceLang targetLang) memory = none) :
    addToMemory toLowerCase d source target sourceLang targetLang memory =
      ({ id := d.now, source := source, target := target, sourceLang := sourceLang,
         targetLang := targetLang, frequency := 1, lastUsed := d.iso } :: memory).take
        MEMORY_MAX := by
  simp only [addToMemory, h]
  split
  · rfl
  · rename_i hlen
    rw [List.take_of_length_le (by omega)]

/-- When an entry matches, `addToMemory` rewrites the first matching entry in place. -/
theorem addToMemory_of_some (toLowerCase : String → String) (d : DateReads)
    (source target sourceLang targetLang : String) (memory : List MemoryEntry) (i : Nat)
    (m : MemoryEntry)
    (h : findIndex (matchesKey toLowerCase source sourceLang targetLang) memory = some i)
    (hm : memory[i]? = some m) :
    addToMemory toLowerCase d source target sourceLang targetLang memory =
      memory.set i { m with frequency := m.frequency + 1, lastUsed := d.isoTouch } := by
  simp only [addToMemory, h, hm]

theorem addToMemory_length_le (toLowerCase : String → String) (d : DateReads)
    (source target sourceLang targetLang : String) (memory : List MemoryEntry)
    (h : memory.length ≤ MEMORY_MAX) :
    (addToMemory toLowerCase d source target sourceLang targetLang memory).length ≤
      MEMORY_MAX := by
  cases hf : findIndex (matchesKey toLowerCase source sourceLang targetLang) memory with
  | none =>
    rw [addToMemory_of_none _ _ _ _ _ _ _ hf, List.length_take]
    exact Nat.min_le_left _ _
  | some i =>
    obtain ⟨m, hm, -, -⟩ := findIndex_some _ _ _ hf
    rw [addToMemory_of_some _ _ _ _ _ _ _ i m hf hm, List.length_set]
    exact h

/-- Two consecutive insertions of a key that was absent: the store is the once-touched
fresh entry followed by the previous entries, cut to `MEMORY_MAX`. -/
theorem addToMemory_twice_eq (toLowerCase : String → String) (d1 d2 : DateReads)
    (T target1 target2 sourceLang targetLang : String) (memory : List MemoryEntry)
    (hfresh : ∀ m ∈ memory, entryKey toLowerCase m ≠ (toLowerCase T, sourceLang, targetLang)) :
    addToMemory toLowerCase d2 T target2 sourceLang targetLang
        (addToMemory toLowerCase d1 T target1 sourceLang targetLang memory) =
      { id := d1.now, source := T, target := target1, sourceLang := sourceLang,
        targetLang := targetLang, frequency := 2, lastUsed := d2.isoTouch } ::
        memory.take (MEMORY_MAX - 1) := by
  have hnone : findIndex (matchesKey toLowerCase T sourceLang targetLang) memory = none := by
    rw [findIndex_eq_none]
    intro m hm
    exact (matchesKey_eq_false_iff _ _ _ _ _).2 (hfresh m hm)
  rw [addToMemory_of_none _ _ _ _ _ _ _ hnone]
  have htake : ∀ e : MemoryEntry, (e :: memory).take MEMORY_MAX =
      e :: memory.take (MEMORY_MAX - 1) := by
    intro e
    simp [MEMORY_MAX]
  rw [htake]
  have hsome : findIndex (matchesKey toLowerCase T sourceLang targetLang)
      ({ id := d1.now, source := T, target := target1, sourceLang := sourceLang,
         targetLang := targetLang, frequency := 1, lastUsed := d1.iso } ::
        memory.take (MEMORY_MAX - 1)) = some 0 := by
    simp [findIndex, matchesKey]
  rw [addToMemory_of_some _ _ _ _ _ _ _ 0
    { id := d1.now, source := T, target := target1, sourceLang := sourceLang,
      targetLang := targetLang, frequency := 1, lastUsed := d1.iso } hsome (by simp)]
  simp

/-! ## The claims on the translation memory -/

/-- C1: for every source text `T`, language pair and store holding no entry with the key
(`T` lower-cased, sourceLang, targetLang), after two consecutive `addToMemory` calls with
that `(T, sourceLang, targetLang)` the store holds exactly one entry whose key matches,
and that entry has frequency 2. -/
theorem addToMemory_twice_frequency (toLowerCase : String → String) (d1 d2 : DateReads)
    (T target1 target2 sourceLang targetLang : String) (memory : List MemoryEntry)
    (hfresh : ∀ m ∈ memory, entryKey toLowerCase m ≠ (toLowerCase T, sourceLang, targetLang)) :
    ((addToMemory toLowerCase d2 T target2 sourceLang targetLang
        (addToMemory toLowerCase d1 T target1 sourceLang targetLang memory)).filter
        (fun m => decide (entryKey toLowerCase m = (toLowerCase T, sourceLang, targetLang)))).length
      = 1 ∧
    ∀ m ∈ addToMemory toLowerCase d2 T target2 sourceLang targetLang
        (addToMemory toLowerCase d1 T target1 sourceLang targetLang memory),
      entryKey toLowerCase m = (toLowerCase T, sourceLang, targetLang) → m.frequency = 2 := by
  rw [addToMemory_twice_eq toLowerCase d1 d2 T target1 target2 sourceLang targetLang memory
    hfresh]
  have hrest : ∀ m ∈ memory.take (MEMORY_MAX - 1),
      entryKey toLowerCase m ≠ (toLowerCase T, sourceLang, targetLang) :=
    fun m hm => hfresh m (List.mem_of_mem_take hm)
  constructor
  · rw [List.filter_cons_of_pos (by simp [entryKey])]
    rw [List.filter_eq_nil_iff.2 (fun m hm => by simpa using hrest m hm)]
    rfl
  · intro m hm hkey
    rcases List.mem_cons.1 hm with rfl | hm
    · rfl
    · exact absurd hkey (hrest m hm)

theorem addToMemory_twice_frequency_witness :
    (∀ m ∈ sampleMemory, entryKey asciiLower m ≠ (asciiLower "HELLO", "en", "es")) ∧
    ((addToMemory asciiLower sampleDate "HELLO" "Hola!" "en" "es"
        (addToMemory asciiLower sampleDate "HELLO" "Hola" "en" "es" sampleMemory)).filter
        (fun m => decide (entryKey asciiLower m = (asciiLower "HELLO", "en", "es")))).length
      = 1 ∧
    ∀ m ∈ addToMemory asciiLower sampleDate "HELLO" "Hola!" "en" "es"
        (addToMemory asciiLower sampleDate "HELLO" "Hola" "en" "es" sampleMemory),
      entryKey asciiLower m = (asciiLower "HELLO", "en", "es") → m.frequency = 2 :=
  ⟨by decide,
    addToMemory_twice_frequency asciiLower sampleDate sampleDate "HELLO" "Hola" "Hola!"
      "en" "es" sampleMemory (by decide)⟩

/-- C2: starting from any store of at most 500 entries (the empty store included), after
every finite sequence of `addToMemory` calls the store holds at most 500 entries. -/
theorem addAll_length_le (toLowerCase : String → String) (memory : List MemoryEntry)
    (calls : List MemoryCall) (h : memory.length ≤ 500) :
    (addAll toLowerCase memory calls).length ≤ 500 := by
  induction calls generalizing memory with
  | nil => exact h
  | cons c cs ih =>
    exact ih _ (addToMemory_length_le toLowerCase c.date c.source c.target c.sourceLang
      c.targetLang memory h)

theorem addAll_length_le_witness :
    sampleMemory.length ≤ 500 ∧ (addAll asciiLower sampleMemory sampleCalls).length ≤ 500 :=
  ⟨by decide, addAll_length_le asciiLower sampleMemory sampleCalls (by decide)⟩

/-- C10: if some entry of the store matches (source case-insensitively, sourceLang,
targetLang), `addToMemory` keeps the number of entries, leaves every entry other than the
first matching one as it was and where it was, and rewrites the first matching entry in
place with its frequency increased by exactly 1 (and `lastUsed` refreshed). -/
theorem addToMemory_existing_in_place (toLowerCase : String → String) (d : DateReads)
    (source target sourceLang targetLang : String) (memory : List MemoryEntry)
    (h : ∃ m ∈ memory, entryKey toLowerCase m = (toLowerCase source, sourceLang, targetLang)) :
    ∃ (i : Nat) (m : MemoryEntry), memory[i]? = some m ∧
      entryKey toLowerCase m = (toLowerCase source, sourceLang, targetLang) ∧
      (∀ (j : Nat) (y : MemoryEntry), j < i → memory[j]? = some y →
        entryKey toLowerCase y ≠ (toLowerCase source, sourceLang, targetLang)) ∧
      (addToMemory toLowerCase d source target sourceLang targetLang memory).length =
        memory.length ∧
      (∀ j : Nat, j ≠ i →
        (addToMemory toLowerCase d source target sourceLang targetLang memory)[j]? =
          memory[j]?) ∧
      (addToMemory toLowerCase d source target sourceLang targetLang memory)[i]? =
        some { m with frequency := m.frequency + 1, lastUsed := d.isoTouch } := by
  obtain ⟨x, hx, hkey⟩ := h
  obtain ⟨i, hi⟩ := findIndex_isSome_of_mem
    (matchesKey toLowerCase source sourceLang targetLang) memory x hx
    ((matchesKey_iff _ _ _ _ _).2 hkey)
  obtain ⟨m, hm, hpm, hlt⟩ := findIndex_some _ _ _ hi
  have hilt : i < memory.length := by
    by_contra hge
    rw [List.getElem?_eq_none (by omega)] at hm
    exact Option.noConfusion hm
  refine ⟨i, m, hm, (matchesKey_iff _ _ _ _ _).1 hpm, ?_, ?_, ?_, ?_⟩
  · intro j y hj hy
    exact (matchesKey_eq_false_iff _ _ _ _ _).1 (hlt j y hj hy)
  · rw [addToMemory_of_some _ _ _ _ _ _ _ i m hi hm, List.length_set]
  · intro j hj
    rw [addToMemory_of_some _ _ _ _ _ _ _ i m hi hm]
    rw [List.getElem?_set_ne (Ne.symm hj)]
  · rw [addToMemory_of_some _ _ _ _ _ _ _ i m hi hm]
    simp [List.getElem?_set, hilt]

theorem addToMemory_existing_in_place_witness :
    (∃ m ∈ sampleMemory, entryKey asciiLower m = (asciiLower "hello", "en", "fr")) ∧
    ∃ (i : Nat) (m : MemoryEntry), sampleMemory[i]? = some m ∧
      entryKey asciiLower m = (asciiLower "hello", "en", "fr") ∧
      (∀ (j : Nat) (y : MemoryEntry), j < i → sampleMemory[j]? = some y →
        entryKey asciiLower y ≠ (asciiLower "hello", "en", "fr")) ∧
      (addToMemory asciiLower sampleDate "hello" "Salut" "en" "fr" sampleMemory).length =
        sampleMemory.length ∧
      (∀ j : Nat, j ≠ i →
        (addToMemory asciiLower sampleDate "hello" "Salut" "en" "fr" sampleMemory)[j]? =
          sampleMemory[j]?) ∧
      (addToMemory asciiLower sampleDate "hello" "Salut" "en" "fr" sampleMemory)[i]? =
        some { m with frequency := m.frequency + 1, lastUsed := sampleDate.isoTouch } :=
  ⟨by decide,
    addToMemory_existing_in_place asciiLower sampleDate "hello" "Salut" "en" "fr"
      sampleMemory (by decide)⟩

/-! ## The rate limiter -/

theorem checkRateLimit_reset (now : Int) (s : RateState)
    (h : now - s.rateLimitResetTime > RATE_LIMIT_WINDOW) :
    checkRateLimit now s = (true, { rateLimitCount := 1, rateLimitResetTime := now }) := by
  simp [checkRateLimit, h, RATE_LIMIT_MAX]

theorem checkRateLimit_deny (now : Int) (s : RateState)
    (h : ¬ now - s.rateLimitResetTime > RATE_LIMIT_WINDOW)
    (hc : RATE_LIMIT_MAX ≤ s.rateLimitCount) :
    checkRateLimit now s = (false, s) := by
  simp only [checkRateLimit, h, if_false]
  rw [if_pos hc]

theorem checkRateLimit_allow (now : Int) (s : RateState)
    (h : ¬ now - s.rateLimitResetTime > RATE_LIMIT_WINDOW)
    (hc : s.rateLimitCount < RATE_LIMIT_MAX) :
    checkRateLimit now s =
      (true, { rateLimitCount := s.rateLimitCount + 1,
               rateLimitResetTime := s.rateLimitResetTime }) := by
  simp only [checkRateLimit, h, if_false]
  rw [if_neg (by omega)]

theorem checkAll_cons (s : RateState) (now : Int) (rest : List Int) :
    checkAll s (now :: rest) =
      ((checkRateLimit now s).1 :: (checkAll (checkRateLimit now s).2 rest).1,
        (checkAll (checkRateLimit now s).2 rest).2) := rfl

/-- Inside one window the calls are allowed until the counter reaches the maximum. -/
theorem checkAll_within_window (c : Nat) (t0 : Int) (times : List Int)
    (h : ∀ t ∈ times, t - t0 ≤ RATE_LIMIT_WINDOW) :
    (checkAll { rateLimitCount := c, rateLimitResetTime := t0 } times).1 =
      (List.range times.length).map (fun i => decide (c + i < RATE_LIMIT_MAX)) := by
  induction times generalizing c with
  | nil => rfl
  | cons t rest ih =>
    have ht : ¬ t - t0 > RATE_LIMIT_WINDOW := by
      have := h t (List.mem_cons_self _ _)
      omega
    have hrest : ∀ u ∈ rest, u - t0 ≤ RATE_LIMIT_WINDOW :=
      fun u hu => h u (List.mem_cons_of_mem _ hu)
    rw [checkAll_cons, List.length_cons, List.range_succ_eq_map, List.map_cons, List.map_map]
    by_cases hc : c < RATE_LIMIT_MAX
    · rw [checkRateLimit_allow t _ ht hc]
      simp only [ih (c + 1) hrest]
      congr 1
      · simp [hc]
      · apply List.map_congr_left
        intro i _
        have hi : c + 1 + i = c + (i + 1) := by omega
        simp only [Function.comp, Nat.succ_eq_add_one, hi]
    · rw [checkRateLimit_deny t _ ht (by simpa using hc)]
      simp only [ih c hrest]
      congr 1
      · simp [hc]
      · apply List.map_congr_left
        intro i _
        have h1 : ¬ c + i < RATE_LIMIT_MAX := by omega
        have h2 : ¬ c + (i + 1) < RATE_LIMIT_MAX := by omega
        simp [Function.comp, h1, h2]

/-- C3: starting from (count = 0, windowStart = t0), for every sequence of calls made at
times `t` with `t - t0 ≤ 60000`, the first 30 calls return true and the 31st call and every
later call return false: call number `i` (counted from 0) returns true exactly when
`i < 30`. -/
theorem checkAll_first_thirty (t0 : Int) (times : List Int)
    (h : ∀ t ∈ times, t - t0 ≤ 60000) :
    (checkAll { rateLimitCount := 0, rateLimitResetTime := t0 } times).1 =
      (List.range times.length).map (fun i => decide (i < 30)) := by
  have := checkAll_within_window 0 t0 times h
  simpa [RATE_LIMIT_MAX] using this

theorem checkAll_first_thirty_witness :
    (∀ t ∈ [(1000 : Int), 2000, 61000], t - 1000 ≤ 60000) ∧
    (checkAll { rateLimitCount := 0, rateLimitResetTime := 1000 } [1000, 2000, 61000]).1 =
      (List.range [(1000 : Int), 2000, 61000].length).map (fun i => decide (i < 30)) :=
  ⟨by decide, checkAll_first_thirty 1000 [1000, 2000, 61000] (by decide)⟩

/-- C5: for every state (count = 30 included) and every call time `now` with
`now - windowStart > 60000`, `checkRateLimit` returns true and leaves count = 1 and
windowStart = now; when `now - windowStart ≤ 60000` the call does not change windowStart. -/
theorem checkRateLimit_window_reset (s : RateState) (now : Int) :
    (now - s.rateLimitResetTime > 60000 →
      checkRateLimit now s = (true, { rateLimitCount := 1, rateLimitResetTime := now })) ∧
    (now - s.rateLimitResetTime ≤ 60000 →
      (checkRateLimit now s).2.rateLimitResetTime = s.rateLimitResetTime) := by
  constructor
  · intro h
    exact checkRateLimit_reset now s h
  · intro h
    have hn : ¬ now - s.rateLimitResetTime > RATE_LIMIT_WINDOW := by
      simp only [RATE_LIMIT_WINDOW]
      omega
    by_cases hc : s.rateLimitCount < RATE_LIMIT_MAX
    · rw [checkRateLimit_allow now s hn hc]
    · rw [checkRateLimit_deny now s hn (by omega)]

theorem checkRateLimit_window_reset_witness :
    checkRateLimit 60001 { rateLimitCount := 30, rateLimitResetTime := 0 } =
      (true, { rateLimitCount := 1, rateLimitResetTime := 60001 }) ∧
    (checkRateLimit 60000
      { rateLimitCount := 30, rateLimitResetTime := 0 }).2.rateLimitResetTime = 0 :=
  ⟨(checkRateLimit_window_reset { rateLimitCount := 30, rateLimitResetTime := 0 } 60001).1
      (by decide),
    (checkRateLimit_window_reset { rateLimitCount := 30, rateLimitResetTime := 0 } 60000).2
      (by decide)⟩

/-- C6: whenever `checkRateLimit` returns false, `rateLimitCount` and `rateLimitResetTime`
have the same values after the call as before it. -/
theorem checkRateLimit_false_unchanged (s : RateState) (now : Int)
    (h : (checkRateLimit now s).1 = false) : (checkRateLimit now s).2 = s := by
  by_cases hw : now - s.rateLimitResetTime > RATE_LIMIT_WINDOW
  · rw [checkRateLimit_reset now s hw] at h
    exact Bool.noConfusion h
  · by_cases hc : s.rateLimitCount < RATE_LIMIT_MAX
    · rw [checkRateLimit_allow now s hw hc] at h
      exact Bool.noConfusion h
    · rw [checkRateLimit_deny now s hw (by omega)]

theorem checkRateLimit_false_unchanged_witness :
    (checkRateLimit 100 { rateLimitCount := 30, rateLimitResetTime := 0 }).1 = false ∧
    (checkRateLimit 100 { rateLimitCount := 30, rateLimitResetTime := 0 }).2 =
      { rateLimitCount := 30, rateLimitResetTime := 0 } :=
  ⟨by decide,
    checkRateLimit_false_unchanged { rateLimitCount := 30, rateLimitResetTime := 0 } 100
      (by decide)⟩

/-! ### Calls allowed inside a span of one window length -/

theorem allowedInSpan_cons (a t : Int) (times : List Int) (r : Bool) (results : List Bool) :
    allowedInSpan a (t :: times) (r :: results) =
      (if a ≤ t ∧ t ≤ a + RATE_LIMIT_WINDOW ∧ r = true then 1 else 0) +
        allowedInSpan a times results := by
  unfold allowedInSpan
  rw [List.zip_cons_cons, List.filter_cons]
  by_cases h : a ≤ t ∧ t ≤ a + RATE_LIMIT_WINDOW ∧ r = true
  · obtain ⟨h1, h2, h3⟩ := h
    simp [h1, h2, h3]
    omega
  · rw [if_neg h]
    have hb : (decide (a ≤ t) && decide (t ≤ a + RATE_LIMIT_WINDOW) && r) = false := by
      cases hr : (decide (a ≤ t) && decide (t ≤ a + RATE_LIMIT_WINDOW) && r) with
      | false => rfl
      | true =>
        simp only [Bool.and_eq_true, decide_eq_true_eq] at hr
        exact absurd ⟨hr.1.1, hr.1.2, hr.2⟩ h
    simp [hb]

/-- Calls made after the span do not count. -/
theorem allowedInSpan_after (a : Int) (times : List Int) (results : List Bool)
    (h : ∀ t ∈ times, a + RATE_LIMIT_WINDOW < t) : allowedInSpan a times results = 0 := by
  induction times generalizing results with
  | nil => simp [allowedInSpan]
  | cons t rest ih =>
    cases results with
    | nil => simp [allowedInSpan]
    | cons r rs =>
      rw [allowedInSpan_cons, ih rs (fun u hu => h u (List.mem_cons_of_mem _ hu))]
      have := h t (List.mem_cons_self _ _)
      rw [if_neg (by omega)]

/-- In a sorted sequence of calls whose in-span times all fall into the current window, at
most the calls still open in that window are allowed inside the span. -/
theorem allowedInSpan_one_window (a : Int) (s : RateState) (times : List Int)
    (hs : times.Pairwise (· ≤ ·))
    (h : ∀ t ∈ times, t ≤ a + RATE_LIMIT_WINDOW →
      t - s.rateLimitResetTime ≤ RATE_LIMIT_WINDOW) :
    allowedInSpan a times (checkAll s times).1 ≤ RATE_LIMIT_MAX - s.rateLimitCount := by
  induction times generalizing s with
  | nil => simp [allowedInSpan]
  | cons t rest ih =>
    rw [List.pairwise_cons] at hs
    obtain ⟨hle, hsr⟩ := hs
    rw [checkAll_cons]
    by_cases hspan : t ≤ a + RATE_LIMIT_WINDOW
    · have ht : ¬ t - s.rateLimitResetTime > RATE_LIMIT_WINDOW := by
        have := h t (List.mem_cons_self _ _) hspan
        omega
      have hrest : ∀ u ∈ rest, u ≤ a + RATE_LIMIT_WINDOW →
          u - s.rateLimitResetTime ≤ RATE_LIMIT_WINDOW :=
        fun u hu => h u (List.mem_cons_of_mem _ hu)
      rw [allowedInSpan_cons]
      by_cases hc : s.rateLimitCount < RATE_LIMIT_MAX
      · rw [checkRateLimit_allow t s ht hc]
        have := ih { rateLimitCount := s.rateLimitCount + 1,
                     rateLimitResetTime := s.rateLimitResetTime } hsr hrest
        simp only at this ⊢
        split <;> omega
      · rw [checkRateLimit_deny t s ht (by omega)]
        have := ih s hsr hrest
        simp only at this ⊢
        rw [if_neg (by simp)]
        omega
    · rw [allowedInSpan_after]
      · exact Nat.zero_le _
      · intro u hu
        rcases List.mem_cons.1 hu with rfl | hu
        · omega
        · have := hle u hu
          omega

/-- In a sorted sequence of calls none of which precedes the span, the span sees at most
what is left of the current window and one further full window. -/
theorem allowedInSpan_from_start (a : Int) (s : RateState) (times : List Int)
    (hs : times.Pairwise (· ≤ ·)) (h : ∀ t ∈ times, a ≤ t) :
    allowedInSpan a times (checkAll s times).1 ≤
      (RATE_LIMIT_MAX - s.rateLimitCount) + RATE_LIMIT_MAX := by
  induction times generalizing s with
  | nil => simp [allowedInSpan]
  | cons t rest ih =>
    have hsorted := hs
    rw [List.pairwise_cons] at hs
    obtain ⟨hle, hsr⟩ := hs
    have hat : a ≤ t := h t (List.mem_cons_self _ _)
    have hrest : ∀ u ∈ rest, a ≤ u := fun u hu => h u (List.mem_cons_of_mem _ hu)
    by_cases hw : t - s.rateLimitResetTime > RATE_LIMIT_WINDOW
    · rw [checkAll_cons, allowedInSpan_cons, checkRateLimit_reset t s hw]
      have := allowedInSpan_one_window a { rateLimitCount := 1, rateLimitResetTime := t }
        rest hsr (by
          intro u _ hu
          simp only
          omega)
      simp only [RATE_LIMIT_MAX] at this ⊢
      split <;> omega
    · rw [checkAll_cons, allowedInSpan_cons]
      by_cases hc : s.rateLimitCount < RATE_LIMIT_MAX
      · rw [checkRateLimit_allow t s hw hc]
        have := ih { rateLimitCount := s.rateLimitCount + 1,
                     rateLimitResetTime := s.rateLimitResetTime } hsr hrest
        simp only at this ⊢
        split <;> omega
      · rw [checkRateLimit_deny t s hw (by omega)]
        have := ih s hsr hrest
        simp only at this ⊢
        rw [if_neg (by simp)]
        omega

/-- C4, as stated, fails: the calls of `burstTimes`, made at non-decreasing times from
(count = 0, windowStart = 0), all lie in the span from 60000 to 60001, and all 60 of them
return true. -/
theorem burst_allows_sixty :
    burstTimes.Pairwise (· ≤ ·) ∧
    (∀ t ∈ burstTimes, 60000 ≤ t ∧ t ≤ 60000 + 60000) ∧
    (checkAll { rateLimitCount := 0, rateLimitResetTime := 0 } burstTimes).1 =
      List.replicate 60 true ∧
    allowedInSpan 60000 burstTimes
      (checkAll { rateLimitCount := 0, rateLimitResetTime := 0 } burstTimes).1 = 60 ∧
    ¬ allowedInSpan 60000 burstTimes
      (checkAll { rateLimitCount := 0, rateLimitResetTime := 0 } burstTimes).1 ≤ 30 := by
  decide

/-- C4, amended: for every sequence of `checkRateLimit` calls made at non-decreasing times,
from any state, among the calls whose times lie within any one span of 60000 ms at most 60
return true (what is left of the window open at the start of the span, and one further
window of 30). -/
theorem allowedInSpan_le_sixty (s : RateState) (times : List Int)
    (hs : times.Pairwise (· ≤ ·)) (a : Int) :
    allowedInSpan a times (checkAll s times).1 ≤ 60 := by
  induction times generalizing s with
  | nil => simp [allowedInSpan]
  | cons t rest ih =>
    by_cases hat : a ≤ t
    · have := allowedInSpan_from_start a s (t :: rest) hs (by
        intro u hu
        rcases List.mem_cons.1 hu with rfl | hu
        · exact hat
        · have := (List.pairwise_cons.1 hs).1 u hu
          omega)
      simp only [RATE_LIMIT_MAX] at this
      omega
    · rw [checkAll_cons, allowedInSpan_cons, if_neg (by omega), Nat.zero_add]
      exact ih _ (List.pairwise_cons.1 hs).2

theorem allowedInSpan_le_sixty_witness :
    burstTimes.Pairwise (· ≤ ·) ∧
    allowedInSpan 60000 burstTimes
      (checkAll { rateLimitCount := 0, rateLimitResetTime := 0 } burstTimes).1 ≤ 60 :=
  ⟨by decide,
    allowedInSpan_le_sixty { rateLimitCount := 0, rateLimitResetTime := 0 } burstTimes
      (by decide) 60000⟩

/-! ## The batch queue -/

theorem completeCalls_append (l1 l2 : List Event) :
    completeCalls (l1 ++ l2) = completeCalls l1 ++ completeCalls l2 := by
  induction l1 with
  | nil => rfl
  | cons e rest ih =>
    cases e <;> simp [completeCalls, ih]

/-- With a callback that returns normally, one iteration appends exactly the expected
result of its item. -/
theorem processItem_pushed (translateSingle : Translate) (onProgress : OnProgress)
    (hP : ∀ current total, onProgress current total = .ok ()) (total i : Nat)
    (item : BatchItem) :
    (processItem translateSingle onProgress total i item).pushed =
      [expectedResult translateSingle i item] := by
  unfold processItem expectedResult
  cases translateSingle i item.text item.sourceLang item.targetLang with
  | error message => rfl
  | ok translation => simp [hP]

theorem processItem_completeCalls (translateSingle : Translate) (onProgress : OnProgress)
    (total i : Nat) (item : BatchItem) :
    completeCalls (processItem translateSingle onProgress total i item).events = [] := by
  unfold processItem
  cases translateSingle i item.text item.sourceLang item.targetLang with
  | error message => rfl
  | ok translation =>
    cases onProgress (i + 1) total <;> rfl

theorem processLoop_completeCalls (translateSingle : Translate) (onProgress : OnProgress)
    (total i : Nat) (items : List BatchItem) :
    completeCalls (processLoop translateSingle onProgress total i items).2.2 = [] := by
  induction items generalizing i with
  | nil => rfl
  | cons item rest ih =>
    simp only [processLoop]
    rw [completeCalls_append, processItem_completeCalls, ih]
    rfl

theorem processLoop_results_length (translateSingle : Translate) (onProgress : OnProgress)
    (hP : ∀ current total, onProgress current total = .ok ()) (total i : Nat)
    (items : List BatchItem) :
    (processLoop translateSingle onProgress total i items).2.1.length = items.length := by
  induction items generalizing i with
  | nil => rfl
  | cons item rest ih =>
    simp only [processLoop]
    rw [processItem_pushed translateSingle onProgress hP]
    simp [ih]

theorem processLoop_results_get (translateSingle : Translate) (onProgress : OnProgress)
    (hP : ∀ current total, onProgress current total = .ok ()) (total i : Nat)
    (items : List BatchItem) (j : Nat) (item : BatchItem) (h : items[j]? = some item) :
    (processLoop translateSingle onProgress total i items).2.1[j]? =
      some (expectedResult translateSingle (i + j) item) := by
  induction items generalizing i j with
  | nil => simp at h
  | cons x rest ih =>
    simp only [processLoop]
    rw [processItem_pushed translateSingle onProgress hP]
    cases j with
    | zero =>
      simp at h
      subst h
      simp
    | succ j =>
      simp at h
      have := ih (i + 1) j h
      simp only [List.singleton_append, List.getElem?_cons_succ]
      rw [this]
      congr 2
      omega

/-- C7: for every queue of n items and every pattern of translation successes and
failures (the `onProgress` callback returning normally), `processQueue` calls `onComplete`
exactly once, as its last action, with the list `results`; that list has n entries, and
entry i is queue item i with status `completed` and the translation as result if the
translation of item i succeeded, and with status `failed` and the error message if it
failed. -/
theorem processQueue_results (translateSingle : Translate) (onProgress : OnProgress)
    (b : BatchTranslator) (hP : ∀ current total, onProgress current total = .ok ()) :
    completeCalls (processQueue translateSingle onProgress b).2 =
      [(processQueue translateSingle onProgress b).1.results] ∧
    (processQueue translateSingle onProgress b).2.getLast? =
      some (Event.onComplete (processQueue translateSingle onProgress b).1.results) ∧
    (processQueue translateSingle onProgress b).1.results.length = b.queue.length ∧
    ∀ (i : Nat) (item : BatchItem), b.queue[i]? = some item →
      (processQueue translateSingle onProgress b).1.results[i]? =
        some (match translateSingle i item.text item.sourceLang item.targetLang with
          | .ok translation =>
            { item with status := "completed", result := some translation }
          | .error message => { item with status := "failed", error := some message }) := by
  refine ⟨?_, ?_, ?_, ?_⟩
  · simp only [processQueue]
    rw [completeCalls_append, processLoop_completeCalls]
    rfl
  · simp [processQueue]
  · simp only [processQueue]
    exact processLoop_results_length translateSingle onProgress hP _ _ _
  · intro i item h
    simp only [processQueue]
    have := processLoop_results_get translateSingle onProgress hP b.queue.length 0 b.queue
      i item h
    rw [Nat.zero_add] at this
    rw [this]
    rfl

theorem processQueue_results_witness :
    (∀ current total, progressOk current total = .ok ()) ∧
    completeCalls (processQueue failOnB progressOk abcBatch).2 =
      [(processQueue failOnB progressOk abcBatch).1.results] ∧
    (processQueue failOnB progressOk abcBatch).2.getLast? =
      some (Event.onComplete (processQueue failOnB progressOk abcBatch).1.results) ∧
    (processQueue failOnB progressOk abcBatch).1.results.length = abcBatch.queue.length ∧
    ∀ (i : Nat) (item : BatchItem), abcBatch.queue[i]? = some item →
      (processQueue failOnB progressOk abcBatch).1.results[i]? =
        some (match failOnB i item.text item.sourceLang item.targetLang with
          | .ok translation =>
            { item with status := "completed", result := some translation }
          | .error message => { item with status := "failed", error := some message }) :=
  ⟨fun _ _ => rfl, processQueue_results failOnB progressOk abcBatch (fun _ _ => rfl)⟩

/-- A failing item does not stop the run: inputs a, b, c with only b failing give the
statuses completed, failed, completed, in queue order. -/
theorem processQueue_abc_statuses :
    (processQueue failOnB progressOk abcBatch).1.results.map (fun r => (r.text, r.status)) =
      [("a", "completed"), ("b", "failed"), ("c", "completed")] := by
  decide

/-- C8 at the inputs a, b, c with only b failing: `onProgress` is called twice, with
(1, 3) and (3, 3); no call is made for the failed item. -/
theorem processQueue_abc_progressCalls :
    progressCalls (processQueue failOnB progressOk abcBatch).2 = [(1, 3), (3, 3)] := by
  decide

/-- C9 at the inputs a, b, c with only b failing: the run waits 500 ms after a and after
c, and issues the translation call for c right after the failed call for b. -/
theorem processQueue_abc_events :
    (processQueue failOnB progressOk abcBatch).2 =
      [ Event.translateSingle 0 "a" "en" "es", Event.onProgress 1 3, Event.setTimeout 500,
        Event.translateSingle 1 "b" "en" "es",
        Event.translateSingle 2 "c" "en" "es", Event.onProgress 3 3, Event.setTimeout 500,
        Event.onComplete (processQueue failOnB progressOk abcBatch).1.results ] := by
  decide

/-! ## Order and uniqueness in the translation memory -/

theorem addToMemory_keys_of_some (toLowerCase : String → String) (d : DateReads)
    (source target sourceLang targetLang : String) (memory : List MemoryEntry) (i : Nat)
    (h : findIndex (matchesKey toLowerCase source sourceLang targetLang) memory = some i) :
    (addToMemory toLowerCase d source target sourceLang targetLang memory).map
        (entryKey toLowerCase) = memory.map (entryKey toLowerCase) := by
  obtain ⟨m, hm, -, -⟩ := findIndex_some _ _ _ h
  rw [addToMemory_of_some _ _ _ _ _ _ _ i m h hm]
  apply List.ext_getElem?
  intro j
  rw [List.getElem?_map, List.getElem?_map]
  have hilt : i < memory.length := by
    by_contra hge
    rw [List.getElem?_eq_none (by omega)] at hm
    exact Option.noConfusion hm
  by_cases hj : i = j
  · subst hj
    simp [List.getElem?_set, hilt, hm, entryKey]
  · rw [List.getElem?_set_ne hj]

theorem findIndex_none_of_fresh (toLowerCase : String → String)
    (source sourceLang targetLang : String) (memory : List MemoryEntry)
    (h : ∀ m ∈ memory,
      entryKey toLowerCase m ≠ (toLowerCase source, sourceLang, targetLang)) :
    findIndex (matchesKey toLowerCase source sourceLang targetLang) memory = none := by
  rw [findIndex_eq_none]
  intro m hm
  exact (matchesKey_eq_false_iff _ _ _ _ _).2 (h m hm)

/-- C11, as stated, fails: touching the second entry of the sample store leaves the first
entry, which has another key, at the front. -/
theorem touched_entry_not_first :
    (addToMemory asciiLower sampleDate "hello" "Salut" "en" "fr" sampleMemory).head?.map
        (entryKey asciiLower) = some ("good morning", "en", "es") ∧
    (addToMemory asciiLower sampleDate "hello" "Salut" "en" "fr" sampleMemory).head?.map
        (entryKey asciiLower) ≠ some (asciiLower "hello", "en", "fr") := by
  decide

/-- C11, amended: after an `addToMemory` call that inserted a new entry (no entry matched)
the first entry of the store is the new entry, whose key is (source lower-cased,
sourceLang, targetLang); after a call that touched an existing entry the sequence of keys
of the store, and so the order of its entries, is what it was before the call. -/
theorem addToMemory_order (toLowerCase : String → String) (d : DateReads)
    (source target sourceLang targetLang : String) (memory : List MemoryEntry) :
    ((∀ m ∈ memory, entryKey toLowerCase m ≠ (toLowerCase source, sourceLang, targetLang)) →
      (addToMemory toLowerCase d source target sourceLang targetLang memory).head? =
        some { id := d.now, source := source, target := target, sourceLang := sourceLang,
               targetLang := targetLang, frequency := 1, lastUsed := d.iso } ∧
      (addToMemory toLowerCase d source target sourceLang targetLang memory).head?.map
        (entryKey toLowerCase) = some (toLowerCase source, sourceLang, targetLang)) ∧
    ((∃ m ∈ memory, entryKey toLowerCase m = (toLowerCase source, sourceLang, targetLang)) →
      (addToMemory toLowerCase d source target sourceLang targetLang memory).map
        (entryKey toLowerCase) = memory.map (entryKey toLowerCase)) := by
  constructor
  · intro h
    rw [addToMemory_of_none _ _ _ _ _ _ _ (findIndex_none_of_fresh _ _ _ _ _ h)]
    simp [MEMORY_MAX, entryKey]
  · rintro ⟨x, hx, hkey⟩
    obtain ⟨i, hi⟩ := findIndex_isSome_of_mem
      (matchesKey toLowerCase source sourceLang targetLang) memory x hx
      ((matchesKey_iff _ _ _ _ _).2 hkey)
    exact addToMemory_keys_of_some _ _ _ _ _ _ _ i hi

theorem addToMemory_order_witness :
    ((addToMemory asciiLower sampleDate "Thanks" "Gracias" "en" "es" sampleMemory).head? =
        some { id := sampleDate.now, source := "Thanks", target := "Gracias",
               sourceLang := "en", targetLang := "es", frequency := 1,
               lastUsed := sampleDate.iso } ∧
      (addToMemory asciiLower sampleDate "Thanks" "Gracias" "en" "es" sampleMemory).head?.map
        (entryKey asciiLower) = some (asciiLower "Thanks", "en", "es")) ∧
    (addToMemory asciiLower sampleDate "hello" "Salut" "en" "fr" sampleMemory).map
        (entryKey asciiLower) = sampleMemory.map (entryKey asciiLower) :=
  ⟨(addToMemory_order asciiLower sampleDate "Thanks" "Gracias" "en" "es" sampleMemory).1
      (by decide),
    (addToMemory_order asciiLower sampleDate "hello" "Salut" "en" "fr" sampleMemory).2
      (by decide)⟩

/-- C12: if no entry of the store matches (source case-insensitively, sourceLang,
targetLang), then after `addToMemory` the store is the new entry (the given source, target,
sourceLang, targetLang, frequency 1) followed by the previous entries in their previous
order, cut to the first 500; with n previous entries the new length is min(n + 1, 500). -/
theorem addToMemory_insert_front (toLowerCase : String → String) (d : DateReads)
    (source target sourceLang targetLang : String) (memory : List MemoryEntry)
    (h : ∀ m ∈ memory,
      entryKey toLowerCase m ≠ (toLowerCase source, sourceLang, targetLang)) :
    addToMemory toLowerCase d source target sourceLang targetLang memory =
      ({ id := d.now, source := source, target := target, sourceLang := sourceLang,
         targetLang := targetLang, frequency := 1, lastUsed := d.iso } :: memory).take 500 ∧
    (addToMemory toLowerCase d source target sourceLang targetLang memory).length =
      min (memory.length + 1) 500 := by
  rw [addToMemory_of_none _ _ _ _ _ _ _ (findIndex_none_of_fresh _ _ _ _ _ h)]
  refine ⟨rfl, ?_⟩
  rw [List.length_take, List.length_cons, Nat.min_comm]
  rfl

theorem addToMemory_insert_front_witness :
    (∀ m ∈ sampleMemory, entryKey asciiLower m ≠ (asciiLower "Thanks", "en", "es")) ∧
    addToMemory asciiLower sampleDate "Thanks" "Gracias" "en" "es" sampleMemory =
      ({ id := sampleDate.now, source := "Thanks", target := "Gracias", sourceLang := "en",
         targetLang := "es", frequency := 1, lastUsed := sampleDate.iso } ::
        sampleMemory).take 500 ∧
    (addToMemory asciiLower sampleDate "Thanks" "Gracias" "en" "es" sampleMemory).length =
      min (sampleMemory.length + 1) 500 :=
  ⟨by decide,
    addToMemory_insert_front asciiLower sampleDate "Thanks" "Gracias" "en" "es" sampleMemory
      (by decide)⟩

/-- C13: the empty store has no two entries with the same key (source lower-cased,
sourceLang, targetLang), and a store with no two such entries before an `addToMemory` call
has none after it. -/
theorem addToMemory_keys_nodup (toLowerCase : String → String) (d : DateReads)
    (source target sourceLang targetLang : String) (memory : List MemoryEntry) :
    (([] : List MemoryEntry).map (entryKey toLowerCase)).Nodup ∧
    ((memory.map (entryKey toLowerCase)).Nodup →
      ((addToMemory toLowerCase d source target sourceLang targetLang memory).map
        (entryKey toLowerCase)).Nodup) := by
  refine ⟨List.nodup_nil, ?_⟩
  intro hnd
  cases hf : findIndex (matchesKey toLowerCase source sourceLang targetLang) memory with
  | some i => rw [addToMemory_keys_of_some _ _ _ _ _ _ _ i hf]; exact hnd
  | none =>
    rw [addToMemory_of_none _ _ _ _ _ _ _ hf]
    have hfresh : (toLowerCase source, sourceLang, targetLang) ∉
        memory.map (entryKey toLowerCase) := by
      intro hmem
      obtain ⟨m, hm, hkey⟩ := List.mem_map.1 hmem
      have := (findIndex_eq_none _ _).1 hf m hm
      rw [(matchesKey_iff _ _ _ _ _).2 hkey] at this
      exact Bool.noConfusion this
    refine ((List.take_sublist _ _).map _).nodup ?_
    rw [List.map_cons, List.nodup_cons]
    exact ⟨hfresh, hnd⟩

theorem addToMemory_keys_nodup_witness :
    (sampleMemory.map (entryKey asciiLower)).Nodup ∧
    ((addToMemory asciiLower sampleDate "Thanks" "Gracias" "en" "es" sampleMemory).map
      (entryKey asciiLower)).Nodup :=
  ⟨by decide,
    (addToMemory_keys_nodup asciiLower sampleDate "Thanks" "Gracias" "en" "es"
      sampleMemory).2 (by decide)⟩

/-! ## Searching the translation memory -/

theorem sortBy_perm {α : Type} (compare : α → α → Int) (l : List α) :
    (sortBy compare l).Perm l :=
  List.perm_insertionSort _ l

theorem orderedInsert_frequency (a : MemoryEntry) (l : List MemoryEntry)
    (h : l.Pairwise (fun x y => y.frequency ≤ x.frequency)) :
    (l.orderedInsert
      (fun x y => (y.frequency : Int) - (x.frequency : Int) ≤ 0) a).Pairwise
      (fun x y => y.frequency ≤ x.frequency) := by
  induction l with
  | nil => simp
  | cons b rest ih =>
    rw [List.pairwise_cons] at h
    obtain ⟨hb, hrest⟩ := h
    rw [List.orderedInsert]
    split
    · rename_i hab
      have hba : b.frequency ≤ a.frequency := by omega
      rw [List.pairwise_cons]
      refine ⟨?_, List.pairwise_cons.2 ⟨hb, hrest⟩⟩
      intro y hy
      rcases List.mem_cons.1 hy with rfl | hy
      · exact hba
      · exact le_trans (hb y hy) hba
    · rename_i hab
      have hlt : a.frequency ≤ b.frequency := by omega
      rw [List.pairwise_cons]
      refine ⟨?_, ih hrest⟩
      intro y hy
      rcases (List.mem_orderedInsert _).1 hy with rfl | hy
      · exact hlt
      · exact hb y hy

theorem sortBy_frequency_sorted (l : List MemoryEntry) :
    (sortBy (fun a b : MemoryEntry => (b.frequency : Int) - (a.frequency : Int)) l).Pairwise
      (fun x y => y.frequency ≤ x.frequency) := by
  induction l with
  | nil => simp [sortBy]
  | cons a rest ih =>
    simp only [sortBy, List.insertionSort] at ih ⊢
    exact orderedInsert_frequency a _ ih

/-- C14: for every store, query, sourceLang and targetLang, `searchMemory` returns exactly
the entries of the store, each as often as it is in the store, whose lower-cased source
contains the lower-cased query as a substring and whose sourceLang and targetLang equal the
given ones; in the returned sequence frequencies are non-increasing. -/
theorem searchMemory_spec (toLowerCase : String → String) (query sourceLang targetLang : String)
    (memory : List MemoryEntry) :
    (searchMemory toLowerCase query sourceLang targetLang memory).Perm
      (memory.filter fun m =>
        decide ((toLowerCase query).data <:+: (toLowerCase m.source).data ∧
          m.sourceLang = sourceLang ∧ m.targetLang = targetLang)) ∧
    (searchMemory toLowerCase query sourceLang targetLang memory).Pairwise
      (fun x y => y.frequency ≤ x.frequency) := by
  constructor
  · unfold searchMemory
    refine (sortBy_perm _ _).trans ?_
    apply List.Perm.of_eq
    apply List.filter_congr
    intro m _
    simp only [includes, Bool.and_assoc, Bool.decide_and]
    rfl
  · exact sortBy_frequency_sorted _

/-! ## Export of batch results -/

theorem getSubstitution_two_quotes (isMatched before after : List Char) :
    getSubstitution isMatched before after ['"', '"'] = ['"', '"'] := by
  simp [getSubstitution]

/-- The scan for the pattern `"` doubles every double-quote character and keeps every
other character. -/
theorem replaceLoop_quote (before text : List Char) :
    replaceLoop false id ['"'] (fun _ _ _ => ['"', '"']) 0 before text =
      text.flatMap fun c => if c = '"' then ['"', '"'] else [c] := by
  induction text generalizing before with
  | nil => simp [replaceLoop, matchesAt, prefixMatch]
  | cons c rest ih =>
    by_cases hc : c = '"'
    · subst hc
      simp [replaceLoop, matchesAt, prefixMatch, ih]
    · have hne : ('"' == c) = false := by
        simpa using fun h : '"' = c => hc h.symm
      simp [replaceLoop, matchesAt, prefixMatch, hne, hc, ih]

theorem replaceQuotes_eq (s : String) : replaceQuotes s = doubleQuotes s := by
  have hsub : (fun isMatched before after : List Char =>
      getSubstitution isMatched before after "\"\"".data) = fun _ _ _ => ['"', '"'] := by
    funext isMatched before after
    exact getSubstitution_two_quotes isMatched before after
  unfold replaceQuotes replaceLiteral doubleQuotes
  rw [hsub]
  exact congrArg String.mk (replaceLoop_quote [] s.data)

/-- C17: for every list of batch results, `exportResults('csv')` is the header line
`Original,Translation,Status` followed by one line per result in result order, the lines
joined by newlines; each line is the original, the translation (the stored result, or
`Failed` without one) and the status, each between double quotes and separated by commas,
with every double quote inside the original and the translation doubled. The original
He said "hi" becomes the field "He said ""hi""". -/
theorem exportResults_csv (jsonStringify : List ExportRow → String)
    (results : List BatchItem) :
    exportResults jsonStringify "csv" results =
      "Original,Translation,Status\n" ++
        "\n".intercalate (results.map fun r =>
          "\"" ++ doubleQuotes r.text ++ "\",\"" ++ doubleQuotes (resultOrFailed r) ++
            "\",\"" ++ r.status ++ "\"") ∧
    doubleQuotes "He said \"hi\"" = "He said \"\"hi\"\"" ∧
    exportResults jsonStringify "csv" [quotedResult] =
      "Original,Translation,Status\n" ++
        "\"He said \"\"hi\"\"\",\"Él dijo \"\"hola\"\"\",\"completed\"" := by
  have hgen : ∀ rs : List BatchItem, exportResults jsonStringify "csv" rs =
      "Original,Translation,Status\n" ++
        "\n".intercalate (rs.map fun r =>
          "\"" ++ doubleQuotes r.text ++ "\",\"" ++ doubleQuotes (resultOrFailed r) ++
            "\",\"" ++ r.status ++ "\"") := by
    intro rs
    have h1 : ¬ ("csv" = "json") := by decide
    simp only [exportResults, h1, if_false, if_true, toCSV, exportData, List.map_map,
      replaceQuotes_eq]
    rfl
  refine ⟨hgen results, by decide, ?_⟩
  rw [hgen]
  decide

/-- C18, as stated, fails: `xlsx` is a format other than `json` and `csv`, and for it the
export has a header line and a status column. -/
theorem exportResults_xlsx_not_pairs :
    "xlsx" ≠ "json" ∧ "xlsx" ≠ "csv" ∧
    exportResults sampleStringify "xlsx" [quotedResult] =
      "Original\tTranslation\tStatus\nHe said \"hi\"\tÉl dijo \"hola\"\tcompleted" ∧
    exportResults sampleStringify "xlsx" [quotedResult] ≠
      "\n".intercalate ([quotedResult].map fun r => r.text ++ "\t" ++ resultOrFailed r) := by
  decide

/-- C18, amended: for every list of batch results and every format other than `json`,
`csv` and `xlsx`, `exportResults(format)` is the tab-joined original/translation pairs,
one line per result in result order, joined by newlines; for the format `xlsx` it is the
header line `Original`, `Translation`, `Status` (tab-separated) followed by one line per
result with the original, the translation and the status, tab-separated. -/
theorem exportResults_tab_separated (jsonStringify : List ExportRow → String)
    (format : String) (results : List BatchItem) :
    (format ≠ "json" → format ≠ "csv" → format ≠ "xlsx" →
      exportResults jsonStringify format results =
        "\n".intercalate (results.map fun r => r.text ++ "\t" ++ resultOrFailed r)) ∧
    exportResults jsonStringify "xlsx" results =
      "Original\tTranslation\tStatus\n" ++
        "\n".intercalate
          (results.map fun r => r.text ++ "\t" ++ resultOrFailed r ++ "\t" ++ r.status) := by
  constructor
  · intro h1 h2 h3
    simp only [exportResults, h1, h2, h3, if_false, exportData, List.map_map]
    rfl
  · have h1 : ¬ ("xlsx" = "json") := by decide
    have h2 : ¬ ("xlsx" = "csv") := by decide
    simp only [exportResults, h1, h2, if_false, if_true, toExcelData, exportData,
      List.map_map]
    rfl

theorem exportResults_tab_separated_witness :
    exportResults sampleStringify "tsv" [quotedResult] =
      "\n".intercalate ([quotedResult].map fun r => r.text ++ "\t" ++ resultOrFailed r) ∧
    exportResults sampleStringify "xlsx" [quotedResult] =
      "Original\tTranslation\tStatus\n" ++
        "\n".intercalate
          ([quotedResult].map fun r =>
            r.text ++ "\t" ++ resultOrFailed r ++ "\t" ++ r.status) :=
  ⟨(exportResults_tab_separated sampleStringify "tsv" [quotedResult]).1
      (by decide) (by decide) (by decide),
    (exportResults_tab_separated sampleStringify "xlsx" [quotedResult]).2⟩

/-! ## Quality score -/

theorem wordCount_pos (s : String) : 0 < wordCount s := by
  have h : ∀ (b : Bool) (l : List Char), 0 < splitCountFrom b l := by
    intro b l
    induction l generalizing b with
    | nil => simp [splitCountFrom]
    | cons c rest ih =>
      simp only [splitCountFrom]
      split
      · have := ih true
        omega
      · exact ih false
  exact h false s.data

/-- The length bonus in whole numbers: the quotient lies strictly between 1/2 and 2 exactly
when each length is less than twice the other. -/
theorem lengthBonus_eq (original translation : String) :
    lengthBonus original translation =
      if utf16Length original < 2 * utf16Length translation ∧
        utf16Length translation < 2 * utf16Length original then 10 else 0 := by
  unfold lengthBonus
  by_cases h0 : utf16Length original = 0
  · simp [h0]
  · have hpos : (0 : ℚ) < (utf16Length original : ℚ) := by
      exact_mod_cast Nat.pos_of_ne_zero h0
    have h1 : (utf16Length translation : ℚ) / (utf16Length original : ℚ) > 1 / 2 ↔
        utf16Length original < 2 * utf16Length translation := by
      rw [gt_iff_lt, div_lt_div_iff (by norm_num) hpos]
      constructor
      · intro h
        have : (utf16Length original : ℚ) < 2 * (utf16Length translation : ℚ) := by linarith
        exact_mod_cast this
      · intro h
        have : (utf16Length original : ℚ) < 2 * (utf16Length translation : ℚ) := by
          exact_mod_cast h
        linarith
    have h2 : (utf16Length translation : ℚ) / (utf16Length original : ℚ) < 2 ↔
        utf16Length translation < 2 * utf16Length original := by
      rw [div_lt_iff hpos]
      constructor
      · intro h
        exact_mod_cast h
      · intro h
        exact_mod_cast h
    simp only [h1, h2]

/-- The word-count bonus in whole numbers. -/
theorem wordBonus_eq (original translation : String) :
    wordBonus original translation =
      if 3 * wordCount original < 5 * wordCount translation ∧
        2 * wordCount translation < 3 * wordCount original then 10 else 0 := by
  unfold wordBonus
  have hpos : (0 : ℚ) < (wordCount original : ℚ) := by
    exact_mod_cast wordCount_pos original
  have h1 : (wordCount translation : ℚ) / (wordCount original : ℚ) > 3 / 5 ↔
      3 * wordCount original < 5 * wordCount translation := by
    rw [gt_iff_lt, div_lt_div_iff (by norm_num) hpos]
    constructor
    · intro h
      have : 3 * (wordCount original : ℚ) < 5 * (wordCount translation : ℚ) := by linarith
      exact_mod_cast this
    · intro h
      have : 3 * (wordCount original : ℚ) < 5 * (wordCount translation : ℚ) := by
        exact_mod_cast h
      linarith
  have h2 : (wordCount translation : ℚ) / (wordCount original : ℚ) < 3 / 2 ↔
      2 * wordCount translation < 3 * wordCount original := by
    rw [div_lt_div_iff hpos (by norm_num)]
    constructor
    · intro h
      have : 2 * (wordCount translation : ℚ) < 3 * (wordCount original : ℚ) := by linarith
      exact_mod_cast this
    · intro h
      have : 2 * (wordCount translation : ℚ) < 3 * (wordCount original : ℚ) := by
        exact_mod_cast h
      linarith
  simp only [h1, h2]

theorem firstIsOwnUpperCase_isSome (toUpperCase : String → String) (s : String)
    (h : s ≠ "") : ∃ b, firstIsOwnUpperCase toUpperCase s = some b := by
  unfold firstIsOwnUpperCase
  cases hd : s.data with
  | nil =>
    exact absurd (String.ext hd) h
  | cons c rest =>
    simp only
    split
    · exact ⟨_, rfl⟩
    · exact ⟨_, rfl⟩

theorem firstIsOwnUpperCase_of_beginsUpperCase (toUpperCase toLowerCase : String → String)
    (s : String) (h : beginsUpperCase toUpperCase toLowerCase s = true) :
    firstIsOwnUpperCase toUpperCase s = some true := by
  unfold beginsUpperCase at h
  unfold firstIsOwnUpperCase
  cases hd : s.data with
  | nil => rw [hd] at h; exact Bool.noConfusion h
  | cons c rest =>
    rw [hd] at h
    simp only [Bool.and_eq_true] at h
    simp only
    split
    · rw [h.1]
    · rfl

/-- The score of two non-empty strings, by the outcome of the two capitalization tests. -/
theorem scoreTranslation_eq (toUpperCase : String → String)
    (original translation sourceLang targetLang : String) (u v : Bool)
    (hu : firstIsOwnUpperCase toUpperCase original = some u)
    (hv : firstIsOwnUpperCase toUpperCase translation = some v) :
    scoreTranslation toUpperCase original translation sourceLang targetLang =
      some (min 100 (70 + lengthBonus original translation + wordBonus original translation +
        punctBonus original translation + (if u = true ∧ v = true then 5 else 0))) := by
  unfold scoreTranslation capitalizationCheck
  rw [hu]
  cases u with
  | false => simp
  | true =>
    simp only [hv]
    cases v <;> simp

/-- C19, as stated, fails: for the original `Aa` and the translation `Bb` followed by a
space, the length ratio 3/2 lies strictly between 0.5 and 2, each string has one word, so
the word-count ratio is 1, neither has punctuation, and both begin with an upper-case
character; the code counts two pieces for the translation and returns 90. -/
theorem scoreTranslation_trailing_space :
    ("Aa" : String) ≠ "" ∧ ("Bb " : String) ≠ "" ∧
    ((1 : ℚ) / 2 < (utf16Length "Bb " : ℚ) / (utf16Length "Aa" : ℚ) ∧
      (utf16Length "Bb " : ℚ) / (utf16Length "Aa" : ℚ) < 2) ∧
    ((3 : ℚ) / 5 < (numberOfWords "Bb " : ℚ) / (numberOfWords "Aa" : ℚ) ∧
      (numberOfWords "Bb " : ℚ) / (numberOfWords "Aa" : ℚ) < 3 / 2) ∧
    ((punctCount "Aa" : Int) - (punctCount "Bb " : Int)).natAbs ≤ 2 ∧
    beginsUpperCase asciiUpper asciiLower "Aa" = true ∧
    beginsUpperCase asciiUpper asciiLower "Bb " = true ∧
    wordCount "Bb " = 2 ∧
    scoreTranslation asciiUpper "Aa" "Bb " "en" "es" = some 90 ∧
    scoreTranslation asciiUpper "Aa" "Bb " "en" "es" ≠ some 100 := by
  have h1 : utf16Length "Bb " = 3 := by decide
  have h2 : utf16Length "Aa" = 2 := by decide
  have h3 : numberOfWords "Bb " = 1 := by decide
  have h4 : numberOfWords "Aa" = 1 := by decide
  have hcode : scoreTranslation asciiUpper "Aa" "Bb " "en" "es" = some 90 := by
    rw [scoreTranslation_eq asciiUpper "Aa" "Bb " "en" "es" true true (by decide) (by decide),
      lengthBonus_eq, wordBonus_eq]
    decide
  refine ⟨by decide, by decide, ?_, ?_, by decide, by decide, by decide, by decide, hcode, ?_⟩
  · rw [h1, h2]
    norm_num
  · rw [h3, h4]
    norm_num
  · rw [hcode]
    decide

/-- C19, amended: for every non-empty original and non-empty translation for which all
four bonus conditions hold (length ratio strictly between 0.5 and 2, ratio of the word
counts as the code takes them, `split(/\s+/).length`, strictly between 0.6 and 1.5,
punctuation counts differing by at most 2, both beginning with an upper-case character),
`scoreTranslation` returns 100. -/
theorem scoreTranslation_all_bonuses (toUpperCase toLowerCase : String → String)
    (original translation sourceLang targetLang : String)
    (_ho : original ≠ "") (_ht : translation ≠ "")
    (hlen : (1 : ℚ) / 2 < (utf16Length translation : ℚ) / (utf16Length original : ℚ) ∧
      (utf16Length translation : ℚ) / (utf16Length original : ℚ) < 2)
    (hword : (3 : ℚ) / 5 < (wordCount translation : ℚ) / (wordCount original : ℚ) ∧
      (wordCount translation : ℚ) / (wordCount original : ℚ) < 3 / 2)
    (hpunct : ((punctCount original : Int) - (punctCount translation : Int)).natAbs ≤ 2)
    (hcap : beginsUpperCase toUpperCase toLowerCase original = true ∧
      beginsUpperCase toUpperCase toLowerCase translation = true) :
    scoreTranslation toUpperCase original translation sourceLang targetLang = some 100 := by
  rw [scoreTranslation_eq toUpperCase original translation sourceLang targetLang true true
    (firstIsOwnUpperCase_of_beginsUpperCase _ _ _ hcap.1)
    (firstIsOwnUpperCase_of_beginsUpperCase _ _ _ hcap.2)]
  have h1 : lengthBonus original translation = 10 := by
    unfold lengthBonus
    exact if_pos hlen
  have h2 : wordBonus original translation = 10 := by
    unfold wordBonus
    exact if_pos hword
  have h3 : punctBonus original translation = 5 := by
    unfold punctBonus
    exact if_pos hpunct
  rw [h1, h2, h3]
  rfl

theorem scoreTranslation_all_bonuses_witness :
    scoreTranslation asciiUpper "Hello." "Hola." "en" "es" = some 100 :=
  scoreTranslation_all_bonuses asciiUpper asciiLower "Hello." "Hola." "en" "es"
    (by decide) (by decide)
    (by
      have h1 : utf16Length "Hola." = 5 := by decide
      have h2 : utf16Length "Hello." = 6 := by decide
      rw [h1, h2]
      norm_num)
    (by
      have h1 : wordCount "Hola." = 1 := by decide
      have h2 : wordCount "Hello." = 1 := by decide
      rw [h1, h2]
      norm_num)
    (by decide) (by decide)

/-- C20, as stated, fails: for an original and a translation that begin with a digit, not
with an upper-case character, the capitalization bonus is given all the same: the score is
100, not the 95 of the stated formula. -/
theorem scoreTranslation_digit_start :
    beginsUpperCase asciiUpper asciiLower "1a" = false ∧
    beginsUpperCase asciiUpper asciiLower "2b" = false ∧
    scoreSpec asciiUpper asciiLower "1a" "2b" = 95 ∧
    scoreTranslation asciiUpper "1a" "2b" "en" "es" = some 100 ∧
    scoreTranslation asciiUpper "1a" "2b" "en" "es" ≠
      some (scoreSpec asciiUpper asciiLower "1a" "2b") := by
  have hspec : scoreSpec asciiUpper asciiLower "1a" "2b" = 95 := by
    unfold scoreSpec
    rw [lengthBonus_eq, wordBonus_eq]
    decide
  have hcode : scoreTranslation asciiUpper "1a" "2b" "en" "es" = some 100 := by
    rw [scoreTranslation_eq asciiUpper "1a" "2b" "en" "es" true true (by decide) (by decide),
      lengthBonus_eq, wordBonus_eq]
    decide
  refine ⟨by decide, by decide, hspec, hcode, ?_⟩
  rw [hspec, hcode]
  decide

/-- C20, amended: for every non-empty original and non-empty translation,
`scoreTranslation` is min(100, 70 + a + b + c + d) where a = 10 exactly when
translation.length / original.length lies strictly between 0.5 and 2, b = 10 exactly when
the ratio of the word counts `split(/\s+/).length` (translation over original) lies
strictly between 0.6 and 1.5, c = 5 exactly when the counts of the characters . , ! ? ; :
differ by at most 2, and d = 5 exactly when the first character of the original and the
first character of the translation are each their own upper-casing; the sourceLang and
targetLang arguments do not occur in the result. -/
theorem scoreTranslation_formula (toUpperCase : String → String)
    (original translation sourceLang targetLang : String)
    (ho : original ≠ "") (ht : translation ≠ "") :
    scoreTranslation toUpperCase original translation sourceLang targetLang =
      some (min 100 (70 +
        (if (1 : ℚ) / 2 < (utf16Length translation : ℚ) / (utf16Length original : ℚ) ∧
            (utf16Length translation : ℚ) / (utf16Length original : ℚ) < 2 then 10 else 0) +
        (if (3 : ℚ) / 5 < (wordCount translation : ℚ) / (wordCount original : ℚ) ∧
            (wordCount translation : ℚ) / (wordCount original : ℚ) < 3 / 2 then 10 else 0) +
        (if ((punctCount original : Int) - (punctCount translation : Int)).natAbs ≤ 2
          then 5 else 0) +
        (if firstIsOwnUpperCase toUpperCase original = some true ∧
            firstIsOwnUpperCase toUpperCase translation = some true then 5 else 0))) := by
  obtain ⟨u, hu⟩ := firstIsOwnUpperCase_isSome toUpperCase original ho
  obtain ⟨v, hv⟩ := firstIsOwnUpperCase_isSome toUpperCase translation ht
  rw [scoreTranslation_eq toUpperCase original translation sourceLang targetLang u v hu hv,
    hu, hv]
  simp only [lengthBonus, wordBonus, punctBonus, gt_iff_lt, Option.some.injEq]

theorem scoreTranslation_formula_witness :
    ("1a" : String) ≠ "" ∧ ("2b" : String) ≠ "" ∧
    scoreTranslation asciiUpper "1a" "2b" "en" "es" =
      some (min 100 (70 +
        (if (1 : ℚ) / 2 < (utf16Length "2b" : ℚ) / (utf16Length "1a" : ℚ) ∧
            (utf16Length "2b" : ℚ) / (utf16Length "1a" : ℚ) < 2 then 10 else 0) +
        (if (3 : ℚ) / 5 < (wordCount "2b" : ℚ) / (wordCount "1a" : ℚ) ∧
            (wordCount "2b" : ℚ) / (wordCount "1a" : ℚ) < 3 / 2 then 10 else 0) +
        (if ((punctCount "1a" : Int) - (punctCount "2b" : Int)).natAbs ≤ 2 then 5 else 0) +
        (if firstIsOwnUpperCase asciiUpper "1a" = some true ∧
            firstIsOwnUpperCase asciiUpper "2b" = some true then 5 else 0))) :=
  ⟨by decide, by decide,
    scoreTranslation_formula asciiUpper "1a" "2b" "en" "es" (by decide) (by decide)⟩

/-! ## Glossary -/

/-- A replacement string without a dollar sign stands for itself. -/
theorem getSubstitution_of_no_dollar (isMatched before after replacement : List Char)
    (h : ∀ c ∈ replacement, c.toNat ≠ 36) :
    getSubstitution isMatched before after replacement = replacement := by
  induction replacement with
  | nil => rfl
  | cons c tail ih =>
    cases tail with
    | nil => rfl
    | cons d rest =>
      have hc : c.toNat ≠ 36 := h c (List.mem_cons_self _ _)
      have ht := ih fun x hx => h x (List.mem_cons_of_mem _ hx)
      simp only [getSubstitution, hc, if_false, ht]

/-- Where the code and the specified glossary agree: on entries whose term has no
character with a meaning in a pattern and whose translation has no dollar sign. -/
theorem applyGlossary_eq_spec_of_plain (regExpReplace : RegExpReplace)
    (canonicalize : Char → Char) (text sourceLang targetLang : String)
    (glossary : List GlossaryEntry)
    (h : ∀ g ∈ glossary, isLiteralTerm g.term = true ∧ ∀ c ∈ g.translation.data, c.toNat ≠ 36) :
    applyGlossary regExpReplace canonicalize text sourceLang targetLang glossary =
      .ok (applyGlossarySpec canonicalize text sourceLang targetLang glossary) := by
  unfold applyGlossary applyGlossarySpec
  have hfold : ∀ (entries : List GlossaryEntry) (t : String),
      (∀ g ∈ entries, isLiteralTerm g.term = true ∧ ∀ c ∈ g.translation.data, c.toNat ≠ 36) →
      entries.foldlM
        (fun result g => replaceTerm regExpReplace canonicalize g.term g.translation result)
        t = .ok (entries.foldl
          (fun result g => replaceWholeWord canonicalize g.term g.translation result) t) := by
    intro entries
    induction entries with
    | nil => intro t _; rfl
    | cons g rest ih =>
      intro t hall
      have hg := hall g (List.mem_cons_self _ _)
      have hpass : replaceTerm regExpReplace canonicalize g.term g.translation t =
          .ok (replaceWholeWord canonicalize g.term g.translation t) := by
        unfold replaceTerm replaceLiteral replaceWholeWord
        rw [if_pos hg.1]
        have hsub : (fun isMatched before after : List Char =>
            getSubstitution isMatched before after g.translation.data) =
            fun _ _ _ => g.translation.data := by
          funext isMatched before after
          exact getSubstitution_of_no_dollar _ _ _ _ hg.2
        rw [hsub]
      rw [List.foldlM_cons, hpass, List.foldl_cons]
      exact ih _ fun x hx => hall x (List.mem_cons_of_mem _ hx)
  exact hfold _ text fun g hg => h g (List.mem_of_mem_filter hg)

/-- C15 at the glossary with the entry cat, `$&s` and the text "the cat sat": the code
returns "the cats sat", the matched text followed by s, where replacing the occurrence of
the term by the translation gives "the $&s sat". For the term `C++` the pattern handed to
the engine is `\bC++\b`, the term unescaped. -/
theorem applyGlossary_dollar_pattern :
    applyGlossary rejectingEngine Char.toUpper "the cat sat" "en" "es" dollarGlossary =
      .ok "the cats sat" ∧
    applyGlossarySpec Char.toUpper "the cat sat" "en" "es" dollarGlossary = "the $&s sat" ∧
    applyGlossary rejectingEngine Char.toUpper "the cat sat" "en" "es" dollarGlossary ≠
      .ok (applyGlossarySpec Char.toUpper "the cat sat" "en" "es" dollarGlossary) ∧
    ∀ engine : RegExpReplace,
      applyGlossary engine Char.toUpper "I like C++" "en" "es" plusGlossary =
        engine "\\bC++\\b" "gi" "Cpp" "I like C++" := by
  refine ⟨by decide, by decide, by decide, ?_⟩
  intro engine
  have h : applyGlossary engine Char.toUpper "I like C++" "en" "es" plusGlossary =
      (engine "\\bC++\\b" "gi" "Cpp" "I like C++" >>= pure) := rfl
  rw [h, bind_pure]

/-- C16, as stated, fails: the terms b and a of `chainGlossary` are disjoint, the glossary
turns the text "a" into "b", and applied again it turns "b" into "c". -/
theorem applyGlossary_chain_not_idempotent :
    termsDisjoint "en" "es" chainGlossary ∧
    applyGlossary rejectingEngine Char.toUpper "a" "en" "es" chainGlossary = .ok "b" ∧
    applyGlossary rejectingEngine Char.toUpper "b" "en" "es" chainGlossary = .ok "c" ∧
    applyGlossary rejectingEngine Char.toUpper "b" "en" "es" chainGlossary ≠
      applyGlossary rejectingEngine Char.toUpper "a" "en" "es" chainGlossary := by
  decide

/-- Terms of more than one word: the terms `c d` and `a b` of `phraseGlossary` are
disjoint and no translation is a term or contains one, yet the glossary turns the text
"a b d" into "c d", and applied again it turns "c d" into "x". A translation can complete
a term with the words around it. -/
theorem applyGlossary_phrase_not_idempotent :
    termsDisjoint "en" "es" phraseGlossary ∧
    (∀ g ∈ phraseGlossary, ∀ h ∈ phraseGlossary,
      ¬ h.term.data.map Char.toUpper <:+: g.translation.data.map Char.toUpper) ∧
    applyGlossary rejectingEngine Char.toUpper "a b d" "en" "es" phraseGlossary = .ok "c d" ∧
    applyGlossary rejectingEngine Char.toUpper "c d" "en" "es" phraseGlossary = .ok "x" := by
  decide

/-! ### Words of a text and the passes of the glossary -/

theorem eachWord_true (text : List Char) : EachWord (fun _ => True) text := by
  generalize hn : text.length = n
  induction n using Nat.strong_induction_on generalizing text with
  | _ n ih =>
    cases text with
    | nil => exact EachWord.nil
    | cons c rest =>
      cases hc : isWordChar c with
      | false =>
        exact EachWord.gap c rest hc
          (ih rest.length (by rw [← hn, List.length_cons]; omega) rest rfl)
      | true =>
        have hsplit : (c :: rest).takeWhile isWordChar ++ (c :: rest).dropWhile isWordChar =
            c :: rest := List.takeWhile_append_dropWhile _ _
        have hne : (c :: rest).takeWhile isWordChar ≠ [] := by
          simp [List.takeWhile_cons, hc]
        have hlen : ((c :: rest).dropWhile isWordChar).length < n := by
          have h1 := congrArg List.length hsplit
          rw [List.length_append] at h1
          have h2 : 0 < ((c :: rest).takeWhile isWordChar).length := List.length_pos.2 hne
          omega
        rw [← hsplit]
        refine EachWord.word _ _ hne (fun x hx => List.mem_takeWhile_imp hx) ?_ trivial
          (ih _ hlen _ rfl)
        intro x hx
        have := List.head?_dropWhile_not isWordChar (c :: rest)
        rw [hx] at this
        simpa using this

theorem EachWord.mono {P Q : List Char → Prop} {text : List Char}
    (h : EachWord P text) (hPQ : ∀ w, P w → Q w) : EachWord Q text := by
  induction h with
  | nil => exact EachWord.nil
  | gap c rest hc _ ih => exact EachWord.gap c rest hc ih
  | word w rest hne hw hrest hP _ ih => exact EachWord.word w rest hne hw hrest (hPQ w hP) ih

theorem prevIsWord_append_singleton (before : List Char) (c : Char) :
    prevIsWord (before ++ [c]) = isWordChar c := by
  simp [prevIsWord]

theorem prevIsWord_append (before w : List Char) (hne : w ≠ [])
    (hw : ∀ c ∈ w, isWordChar c = true) : prevIsWord (before ++ w) = true := by
  unfold prevIsWord
  rw [List.getLast?_append_of_ne_nil _ hne, List.getLast?_eq_getLast _ hne]
  simp [hw _ (List.getLast_mem hne)]

/-- A term that begins with a word character does not match where the text has a
character that is no word character. -/
theorem prefixMatch_gap (canonicalize : Char → Char)
    (hcanon : ∀ a b, canonicalize a = canonicalize b → isWordChar a = isWordChar b)
    (term : List Char) (hne : term ≠ []) (hterm : ∀ c ∈ term, isWordChar c = true)
    (c : Char) (rest : List Char) (hc : isWordChar c = false) :
    prefixMatch canonicalize term (c :: rest) = false := by
  cases term with
  | nil => exact absurd rfl hne
  | cons t ts =>
    have ht := hterm t (List.mem_cons_self _ _)
    have hneq : (canonicalize t == canonicalize c) = false := by
      cases hb : canonicalize t == canonicalize c with
      | false => rfl
      | true =>
        have := hcanon t c (by simpa using hb)
        rw [ht, hc] at this
        exact Bool.noConfusion this
    simp [prefixMatch, hneq]

theorem prefixMatch_nil_text (canonicalize : Char → Char) (term : List Char)
    (hne : term ≠ []) : prefixMatch canonicalize term [] = false := by
  cases term with
  | nil => exact absurd rfl hne
  | cons t ts => rfl

/-- On a word followed by something that is no word character, the term matches exactly
when it is, canonicalized, the beginning of the word. -/
theorem prefixMatch_word (canonicalize : Char → Char)
    (hcanon : ∀ a b, canonicalize a = canonicalize b → isWordChar a = isWordChar b)
    (term : List Char) (hterm : ∀ c ∈ term, isWordChar c = true)
    (w tail : List Char) (htail : ∀ c, tail.head? = some c → isWordChar c = false) :
    prefixMatch canonicalize term (w ++ tail) = true ↔
      term.length ≤ w.length ∧
        (w.take term.length).map canonicalize = term.map canonicalize := by
  induction term generalizing w with
  | nil => simp [prefixMatch]
  | cons t ts ih =>
    have ht := hterm t (List.mem_cons_self _ _)
    have hts : ∀ c ∈ ts, isWordChar c = true := fun c hc => hterm c (List.mem_cons_of_mem _ hc)
    cases w with
    | nil =>
      cases tail with
      | nil => simp [prefixMatch]
      | cons d tl =>
        have hd := htail d rfl
        have := prefixMatch_gap canonicalize hcanon (t :: ts) (by simp) hterm d tl hd
        simp [this]
    | cons c w2 =>
      have hih := ih hts w2
      rw [List.cons_append]
      simp only [prefixMatch, Bool.and_eq_true, beq_iff_eq]
      rw [hih]
      simp only [List.length_cons, List.take_succ_cons, List.map_cons, List.cons.injEq]
      constructor
      · rintro ⟨h1, h2, h3⟩
        exact ⟨by omega, h1.symm, h3⟩
      · rintro ⟨h1, h2, h3⟩
        exact ⟨h2.symm, by omega, h3⟩

theorem wordFlag_head (w : List Char) (hne : w ≠ []) (hw : ∀ c ∈ w, isWordChar c = true) :
    (w.head?.map isWordChar).getD false = true := by
  cases w with
  | nil => exact absurd rfl hne
  | cons c cs => simp [hw c (List.mem_cons_self _ _)]

theorem wordFlag_getLast (w : List Char) (hne : w ≠ []) (hw : ∀ c ∈ w, isWordChar c = true) :
    (w.getLast?.map isWordChar).getD false = true := by
  rw [List.getLast?_eq_getLast _ hne]
  simp [hw _ (List.getLast_mem hne)]

theorem wordFlag_tail (tail : List Char)
    (htail : ∀ c, tail.head? = some c → isWordChar c = false) :
    (tail.head?.map isWordChar).getD false = false := by
  cases tail with
  | nil => rfl
  | cons d tl => simp [htail d rfl]

/-- At the beginning of a word, the pattern `\b`, term, `\b` matches exactly when the whole
word is, canonicalized, the term. -/
theorem matchesAt_word (canonicalize : Char → Char)
    (hcanon : ∀ a b, canonicalize a = canonicalize b → isWordChar a = isWordChar b)
    (term : List Char) (hne : term ≠ []) (hterm : ∀ c ∈ term, isWordChar c = true)
    (before w tail : List Char) (hprev : prevIsWord before = false) (hwne : w ≠ [])
    (hw : ∀ c ∈ w, isWordChar c = true)
    (htail : ∀ c, tail.head? = some c → isWordChar c = false) :
    matchesAt true canonicalize term before (w ++ tail) =
      decide (w.map canonicalize = term.map canonicalize) := by
  have hpm := prefixMatch_word canonicalize hcanon term hterm w tail htail
  have hstart : isBoundary before.getLast? (w ++ tail).head? = true := by
    unfold isBoundary
    rw [List.head?_append_of_ne_nil _ hwne, wordFlag_head w hwne hw]
    unfold prevIsWord at hprev
    rw [hprev]
    rfl
  have hpos : 0 < term.length := List.length_pos.2 hne
  by_cases hEq : w.map canonicalize = term.map canonicalize
  · have hlen : term.length = w.length := by
      have := congrArg List.length hEq
      simpa using this.symm
    have hp : prefixMatch canonicalize term (w ++ tail) = true := by
      rw [hpm, hlen, List.take_length]
      exact ⟨Nat.le_refl _, hEq⟩
    have hend : isBoundary
        ((((w ++ tail).take term.length).getLast?).orElse fun _ => before.getLast?)
        ((w ++ tail).drop term.length).head? = true := by
      rw [hlen, List.take_left, List.drop_left]
      unfold isBoundary
      rw [List.getLast?_eq_getLast _ hwne]
      simp only [Option.orElse]
      have h1 := wordFlag_getLast w hwne hw
      rw [List.getLast?_eq_getLast _ hwne] at h1
      rw [h1, wordFlag_tail tail htail]
      rfl
    unfold matchesAt
    rw [hp, hstart, hend]
    simp [hEq]
  · have hfalse : matchesAt true canonicalize term before (w ++ tail) = false := by
      cases hm : matchesAt true canonicalize term before (w ++ tail) with
      | false => rfl
      | true =>
        exfalso
        simp only [matchesAt, Bool.not_true, Bool.false_or, Bool.and_eq_true] at hm
        obtain ⟨hp, -, hend⟩ := hm
        obtain ⟨hle, htake⟩ := hpm.1 hp
        by_cases hlen : term.length = w.length
        · rw [hlen, List.take_length] at htake
          exact hEq htake
        · have hlt : term.length < w.length := by omega
          have htk : (w ++ tail).take term.length = w.take term.length :=
            List.take_append_of_le_length hle
          have htkne : w.take term.length ≠ [] := by
            intro h
            have := congrArg List.length h
            rw [List.length_take] at this
            simp only [List.length_nil] at this
            omega
          have hdr : (w ++ tail).drop term.length = w.drop term.length ++ tail :=
            List.drop_append_of_le_length hle
          have hdrne : w.drop term.length ≠ [] := by
            intro h
            have := congrArg List.length h
            rw [List.length_drop] at this
            simp only [List.length_nil] at this
            omega
          rw [htk, hdr, List.head?_append_of_ne_nil _ hdrne] at hend
          unfold isBoundary at hend
          rw [List.getLast?_eq_getLast _ htkne] at hend
          simp only [Option.orElse] at hend
          have h1 := wordFlag_getLast (w.take term.length) htkne
            (fun c hc => hw c (List.mem_of_mem_take hc))
          rw [List.getLast?_eq_getLast _ htkne] at h1
          have h2 := wordFlag_head (w.drop term.length) hdrne
            (fun c hc => hw c (List.mem_of_mem_drop hc))
          rw [h1, h2] at hend
          exact Bool.noConfusion hend
    rw [hfalse]
    simp [hEq]

theorem replaceLoop_nil (canonicalize : Char → Char) (term : List Char) (hne : term ≠ [])
    (subst : List Char → List Char → List Char → List Char) (before : List Char) :
    replaceLoop true canonicalize term subst 0 before [] = [] := by
  simp [replaceLoop, matchesAt, prefixMatch_nil_text canonicalize term hne]

/-- A character that is no word character is kept. -/
theorem replaceLoop_gap (canonicalize : Char → Char)
    (hcanon : ∀ a b, canonicalize a = canonicalize b → isWordChar a = isWordChar b)
    (term : List Char) (hne : term ≠ []) (hterm : ∀ c ∈ term, isWordChar c = true)
    (subst : List Char → List Char → List Char → List Char) (before : List Char)
    (c : Char) (rest : List Char) (hc : isWordChar c = false) :
    replaceLoop true canonicalize term subst 0 before (c :: rest) =
      c :: replaceLoop true canonicalize term subst 0 (before ++ [c]) rest := by
  simp [replaceLoop, matchesAt, prefixMatch_gap canonicalize hcanon term hne hterm c rest hc]

/-- Passing the characters of a match. -/
theorem replaceLoop_pass (bounded : Bool) (canonicalize : Char → Char) (term : List Char)
    (subst : List Char → List Char → List Char → List Char) (u before tail : List Char) :
    replaceLoop bounded canonicalize term subst u.length before (u ++ tail) =
      replaceLoop bounded canonicalize term subst 0 (before ++ u) tail := by
  induction u generalizing before with
  | nil => simp
  | cons c cs ih =>
    show replaceLoop bounded canonicalize term subst (cs.length + 1) before
      (c :: (cs ++ tail)) = _
    simp only [replaceLoop]
    rw [ih]
    simp

/-- Inside a word nothing matches: the rest of the word is kept. -/
theorem replaceLoop_inside (canonicalize : Char → Char) (term : List Char)
    (subst : List Char → List Char → List Char → List Char) (u before tail : List Char)
    (hprev : prevIsWord before = true) (hu : ∀ c ∈ u, isWordChar c = true) :
    replaceLoop true canonicalize term subst 0 before (u ++ tail) =
      u ++ replaceLoop true canonicalize term subst 0 (before ++ u) tail := by
  induction u generalizing before with
  | nil => simp
  | cons c cs ih =>
    have hc := hu c (List.mem_cons_self _ _)
    have hstart : isBoundary before.getLast? (some c) = false := by
      unfold isBoundary
      unfold prevIsWord at hprev
      rw [hprev]
      simp [hc]
    have hm : matchesAt true canonicalize term before (c :: (cs ++ tail)) = false := by
      simp [matchesAt, hstart]
    rw [List.cons_append]
    simp only [replaceLoop, hm, Bool.false_eq_true, if_false]
    rw [ih (before ++ [c]) (by rw [prevIsWord_append_singleton]; exact hc)
      (fun x hx => hu x (List.mem_cons_of_mem _ hx))]
    simp

/-- A whole word is replaced by the translation when it is, canonicalized, the term, and
kept otherwise. -/
theorem replaceLoop_word (canonicalize : Char → Char)
    (hcanon : ∀ a b, canonicalize a = canonicalize b → isWordChar a = isWordChar b)
    (term : List Char) (hne : term ≠ []) (hterm : ∀ c ∈ term, isWordChar c = true)
    (translation before w tail : List Char) (hprev : prevIsWord before = false)
    (hwne : w ≠ []) (hw : ∀ c ∈ w, isWordChar c = true)
    (htail : ∀ c, tail.head? = some c → isWordChar c = false) :
    replaceLoop true canonicalize term (fun _ _ _ => translation) 0 before (w ++ tail) =
      (if w.map canonicalize = term.map canonicalize then translation else w) ++
        replaceLoop true canonicalize term (fun _ _ _ => translation) 0 (before ++ w) tail := by
  have hm := matchesAt_word canonicalize hcanon term hne hterm before w tail hprev hwne hw htail
  cases w with
  | nil => exact absurd rfl hwne
  | cons c cs =>
    rw [List.cons_append] at hm ⊢
    by_cases hEq : (c :: cs).map canonicalize = term.map canonicalize
    · have hlen : term.length = cs.length + 1 := by
        have := congrArg List.length hEq
        simpa using this.symm
      have hl0 : term.length ≠ 0 := by omega
      simp only [replaceLoop, hm, hEq, decide_True, if_true, hl0, if_false]
      have hk : term.length - 1 = cs.length := by omega
      rw [hk, replaceLoop_pass]
      simp
    · simp only [replaceLoop, hm, hEq, decide_False, Bool.false_eq_true, if_false]
      rw [replaceLoop_inside canonicalize term _ cs (before ++ [c]) tail
        (by rw [prevIsWord_append_singleton]; exact hw c (List.mem_cons_self _ _))
        (fun x hx => hw x (List.mem_cons_of_mem _ hx))]
      simp

/-- One pass of the glossary on a text of words: every word that is, canonicalized, the
term becomes the translation, every other word is kept. -/
theorem replaceLoop_eachWord (canonicalize : Char → Char)
    (hcanon : ∀ a b, canonicalize a = canonicalize b → isWordChar a = isWordChar b)
    (term : List Char) (hne : term ≠ []) (hterm : ∀ c ∈ term, isWordChar c = true)
    (translation : List Char) (htne : translation ≠ [])
    (htr : ∀ c ∈ translation, isWordChar c = true)
    (P Q : List Char → Prop)
    (hPQ : ∀ w, P w →
      Q (if w.map canonicalize = term.map canonicalize then translation else w))
    (text : List Char) (h : EachWord P text) (before : List Char)
    (hinv : ∀ c, text.head? = some c → isWordChar c = true → prevIsWord before = false) :
    EachWord Q
        (replaceLoop true canonicalize term (fun _ _ _ => translation) 0 before text) ∧
      ∀ c, text.head? = some c → isWordChar c = false →
        (replaceLoop true canonicalize term (fun _ _ _ => translation) 0 before text).head? =
          some c := by
  induction h generalizing before with
  | nil =>
    rw [replaceLoop_nil canonicalize term hne]
    exact ⟨EachWord.nil, fun c hc => Option.noConfusion hc⟩
  | gap c rest hc _ ih =>
    rw [replaceLoop_gap canonicalize hcanon term hne hterm _ before c rest hc]
    refine ⟨EachWord.gap c _ hc (ih (before ++ [c]) ?_).1, ?_⟩
    · intro _ _ _
      rw [prevIsWord_append_singleton]
      exact hc
    · intro d hd _
      simpa using hd
  | word w rest hwne hw hrest hP _ ih =>
    have hhead : ∃ c, (w ++ rest).head? = some c ∧ isWordChar c = true := by
      cases w with
      | nil => exact absurd rfl hwne
      | cons c cs => exact ⟨c, rfl, hw c (List.mem_cons_self _ _)⟩
    obtain ⟨c0, hc0, hc0w⟩ := hhead
    have hprev := hinv c0 hc0 hc0w
    rw [replaceLoop_word canonicalize hcanon term hne hterm translation before w rest hprev
      hwne hw hrest]
    obtain ⟨ih1, ih2⟩ := ih (before ++ w) (fun d hd hdw => by
      rw [hrest d hd] at hdw
      exact Bool.noConfusion hdw)
    constructor
    · refine EachWord.word _ _ ?_ ?_ ?_ (hPQ w hP) ih1
      · split
        · exact htne
        · exact hwne
      · split
        · exact htr
        · exact hw
      · intro d hd
        cases rest with
        | nil =>
          rw [replaceLoop_nil canonicalize term hne] at hd
          exact Option.noConfusion hd
        | cons r rs =>
          have hr := hrest r rfl
          rw [ih2 r rfl hr] at hd
          rw [← Option.some.inj hd]
          exact hr
    · intro d hd hdw
      rw [hc0] at hd
      rw [← Option.some.inj hd, hc0w] at hdw
      exact Bool.noConfusion hdw

/-- A text none of whose words is, canonicalized, the term is left as it is. -/
theorem replaceLoop_fixed (canonicalize : Char → Char)
    (hcanon : ∀ a b, canonicalize a = canonicalize b → isWordChar a = isWordChar b)
    (term : List Char) (hne : term ≠ []) (hterm : ∀ c ∈ term, isWordChar c = true)
    (translation : List Char) (text : List Char)
    (h : EachWord (fun w => w.map canonicalize ≠ term.map canonicalize) text)
    (before : List Char)
    (hinv : ∀ c, text.head? = some c → isWordChar c = true → prevIsWord before = false) :
    replaceLoop true canonicalize term (fun _ _ _ => translation) 0 before text = text := by
  induction h generalizing before with
  | nil => exact replaceLoop_nil canonicalize term hne _ before
  | gap c rest hc _ ih =>
    rw [replaceLoop_gap canonicalize hcanon term hne hterm _ before c rest hc,
      ih (before ++ [c]) (fun _ _ _ => by rw [prevIsWord_append_singleton]; exact hc)]
  | word w rest hwne hw hrest hP _ ih =>
    have hhead : ∃ c, (w ++ rest).head? = some c ∧ isWordChar c = true := by
      cases w with
      | nil => exact absurd rfl hwne
      | cons c cs => exact ⟨c, rfl, hw c (List.mem_cons_self _ _)⟩
    obtain ⟨c0, hc0, hc0w⟩ := hhead
    rw [replaceLoop_word canonicalize hcanon term hne hterm translation before w rest
      (hinv c0 hc0 hc0w) hwne hw hrest, if_neg hP,
      ih (before ++ w) (fun d hd hdw => by
        rw [hrest d hd] at hdw
        exact Bool.noConfusion hdw)]

theorem isWord_iff (s : String) :
    isWord s = true ↔ s.data ≠ [] ∧ ∀ c ∈ s.data, isWordChar c = true := by
  unfold isWord
  cases s.data with
  | nil => simp
  | cons c cs => simp

theorem isSyntaxCharacter_of_isWordChar (c : Char) (h : isWordChar c = true) :
    isSyntaxCharacter c = false := by
  unfold isWordChar at h
  unfold isSyntaxCharacter
  simp only [Bool.or_eq_true, decide_eq_true_eq] at h
  simp only [List.mem_cons, List.mem_singleton, List.not_mem_nil, or_false,
    decide_eq_false_iff_not]
  omega

theorem ne_dollar_of_isWordChar (c : Char) (h : isWordChar c = true) : c.toNat ≠ 36 := by
  unfold isWordChar at h
  simp only [Bool.or_eq_true, decide_eq_true_eq] at h
  omega

/-- One pass of `applyGlossary` for an entry whose term and translation are single
words. -/
theorem replaceTerm_of_words (regExpReplace : RegExpReplace) (canonicalize : Char → Char)
    (term translation text : String) (hterm : isWord term = true)
    (htr : isWord translation = true) :
    replaceTerm regExpReplace canonicalize term translation text =
      .ok (String.mk (replaceLoop true canonicalize term.data
        (fun _ _ _ => translation.data) 0 [] text.data)) := by
  have hlit : isLiteralTerm term = true := by
    unfold isLiteralTerm
    rw [List.all_eq_true]
    intro c hc
    rw [isSyntaxCharacter_of_isWordChar c (((isWord_iff term).1 hterm).2 c hc)]
    rfl
  have hsub : (fun isMatched before after : List Char =>
      getSubstitution isMatched before after translation.data) =
      fun _ _ _ => translation.data := by
    funext isMatched before after
    exact getSubstitution_of_no_dollar _ _ _ _
      (fun c hc => ne_dollar_of_isWordChar c (((isWord_iff translation).1 htr).2 c hc))
  unfold replaceTerm replaceLiteral
  rw [if_pos hlit, hsub]

/-- The passes of a list of entries whose terms and translations are single words, no
translation being, canonicalized, a term of `terms`: the words of the outcome are no terms
of the entries passed already or no terms at all. -/
theorem foldlM_replaceTerm_words (regExpReplace : RegExpReplace) (canonicalize : Char → Char)
    (hcanon : ∀ a b, canonicalize a = canonicalize b → isWordChar a = isWordChar b)
    (terms : List GlossaryEntry) (entries : List GlossaryEntry)
    (hentries : ∀ e ∈ entries, isWord e.term = true ∧ isWord e.translation = true ∧
      ∀ h ∈ terms, e.translation.data.map canonicalize ≠ h.term.data.map canonicalize)
    (passed : List GlossaryEntry) (text : String)
    (htext : EachWord (fun w =>
      (∀ e ∈ passed, w.map canonicalize ≠ e.term.data.map canonicalize) ∨
        ∀ h ∈ terms, w.map canonicalize ≠ h.term.data.map canonicalize) text.data) :
    ∃ out, entries.foldlM
        (fun result g => replaceTerm regExpReplace canonicalize g.term g.translation result)
        text = .ok out ∧
      EachWord (fun w =>
        (∀ e ∈ passed ++ entries, w.map canonicalize ≠ e.term.data.map canonicalize) ∨
          ∀ h ∈ terms, w.map canonicalize ≠ h.term.data.map canonicalize) out.data := by
  induction entries generalizing passed text with
  | nil =>
    refine ⟨text, rfl, ?_⟩
    rw [List.append_nil]
    exact htext
  | cons e rest ih =>
    obtain ⟨hterm, htr, hfresh⟩ := hentries e (List.mem_cons_self _ _)
    obtain ⟨htne, htw⟩ := (isWord_iff e.term).1 hterm
    obtain ⟨hrne, hrw⟩ := (isWord_iff e.translation).1 htr
    have hpass := replaceLoop_eachWord canonicalize hcanon e.term.data htne htw
      e.translation.data hrne hrw _
      (fun w =>
        (∀ x ∈ passed ++ [e], w.map canonicalize ≠ x.term.data.map canonicalize) ∨
          ∀ h ∈ terms, w.map canonicalize ≠ h.term.data.map canonicalize)
      (fun w hw => by
        by_cases hEq : w.map canonicalize = e.term.data.map canonicalize
        · rw [if_pos hEq]
          exact Or.inr hfresh
        · rw [if_neg hEq]
          rcases hw with hw | hw
          · left
            intro x hx
            rcases List.mem_append.1 hx with hx | hx
            · exact hw x hx
            · rw [List.mem_singleton.1 hx]
              exact hEq
          · exact Or.inr hw)
      text.data htext [] (fun _ _ _ => rfl)
    obtain ⟨out, hout, hwords⟩ := ih (fun x hx => hentries x (List.mem_cons_of_mem _ hx))
      (passed ++ [e])
      (String.mk (replaceLoop true canonicalize e.term.data
        (fun _ _ _ => e.translation.data) 0 [] text.data)) hpass.1
    refine ⟨out, ?_, ?_⟩
    · rw [List.foldlM_cons, replaceTerm_of_words regExpReplace canonicalize _ _ _ hterm htr]
      exact hout
    · rw [List.append_assoc] at hwords
      exact hwords

/-- The passes leave a text as it is when none of its words is a term. -/
theorem foldlM_replaceTerm_words_fixed (regExpReplace : RegExpReplace)
    (canonicalize : Char → Char)
    (hcanon : ∀ a b, canonicalize a = canonicalize b → isWordChar a = isWordChar b)
    (terms : List GlossaryEntry) (entries : List GlossaryEntry)
    (hentries : ∀ e ∈ entries,
      e ∈ terms ∧ isWord e.term = true ∧ isWord e.translation = true)
    (text : String)
    (htext : EachWord (fun w =>
      ∀ h ∈ terms, w.map canonicalize ≠ h.term.data.map canonicalize) text.data) :
    entries.foldlM
      (fun result g => replaceTerm regExpReplace canonicalize g.term g.translation result)
      text = .ok text := by
  induction entries with
  | nil => rfl
  | cons e rest ih =>
    obtain ⟨hmem, hterm, htr⟩ := hentries e (List.mem_cons_self _ _)
    obtain ⟨htne, htw⟩ := (isWord_iff e.term).1 hterm
    have hfix := replaceLoop_fixed canonicalize hcanon e.term.data htne htw
      e.translation.data text.data (htext.mono fun w hw => hw e hmem) []
      (fun _ _ _ => rfl)
    rw [List.foldlM_cons, replaceTerm_of_words regExpReplace canonicalize _ _ _ hterm htr,
      hfix]
    exact ih fun x hx => hentries x (List.mem_cons_of_mem _ hx)

/-- Upper-casing the letters a to z never identifies a word character with a character
that is none. -/
theorem toUpper_keeps_word (a b : Char) (h : a.toUpper = b.toUpper) :
    isWordChar a = isWordChar b := by
  have hofNat : ∀ n : Nat, n < 55296 → (Char.ofNat n).toNat = n := by
    intro n hn
    have hv : n.isValidChar := Or.inl hn
    unfold Char.ofNat
    rw [dif_pos hv]
    simp [Char.ofNatAux, Char.toNat, UInt32.toNat]
  have hup : ∀ c : Char, c.toUpper.toNat =
      if 97 ≤ c.toNat ∧ c.toNat ≤ 122 then c.toNat - 32 else c.toNat := by
    intro c
    unfold Char.toUpper
    simp only [ge_iff_le]
    split
    · rename_i hc
      exact hofNat _ (by omega)
    · rfl
  have hn := congrArg Char.toNat h
  rw [hup a, hup b] at hn
  unfold isWordChar
  by_cases ha : 97 ≤ a.toNat ∧ a.toNat ≤ 122 <;> by_cases hb : 97 ≤ b.toNat ∧ b.toNat ≤ 122
  · simp [ha, hb]
  · rw [if_pos ha, if_neg hb] at hn
    have h1 : 65 ≤ b.toNat ∧ b.toNat ≤ 90 := by omega
    simp [ha, h1]
  · rw [if_neg ha, if_pos hb] at hn
    have h1 : 65 ≤ a.toNat ∧ a.toNat ≤ 90 := by omega
    simp [hb, h1]
  · rw [if_neg ha, if_neg hb] at hn
    rw [hn]

/-- C16, amended: for every glossary whose terms and translations for a language pair are
single words (non-empty strings of the letters a to z and A to Z, the digits and `_`) and
none of whose translations for that pair is, case-insensitively, a term of that pair, and
for every text, applying the glossary twice yields the same result as applying it once.
The case folding is any function that never identifies a word character with a character
that is none. -/
theorem applyGlossary_twice_of_words (regExpReplace : RegExpReplace)
    (canonicalize : Char → Char) (text sourceLang targetLang : String)
    (glossary : List GlossaryEntry)
    (hcanon : ∀ a b, canonicalize a = canonicalize b → isWordChar a = isWordChar b)
    (hwords : ∀ g ∈ glossary, g.sourceLang = sourceLang → g.targetLang = targetLang →
      isWord g.term = true ∧ isWord g.translation = true)
    (hfresh : ∀ g ∈ glossary, ∀ h ∈ glossary,
      g.sourceLang = sourceLang → g.targetLang = targetLang →
      h.sourceLang = sourceLang → h.targetLang = targetLang →
      g.translation.data.map canonicalize ≠ h.term.data.map canonicalize) :
    ∃ once, applyGlossary regExpReplace canonicalize text sourceLang targetLang glossary =
        .ok once ∧
      applyGlossary regExpReplace canonicalize once sourceLang targetLang glossary =
        applyGlossary regExpReplace canonicalize text sourceLang targetLang glossary := by
  have hrel : ∀ g, g ∈ glossary.filter
      (fun g => g.sourceLang == sourceLang && g.targetLang == targetLang) →
      g ∈ glossary ∧ g.sourceLang = sourceLang ∧ g.targetLang = targetLang := by
    intro g hg
    rw [List.mem_filter] at hg
    have hpair := hg.2
    simp only [Bool.and_eq_true, beq_iff_eq] at hpair
    exact ⟨hg.1, hpair.1, hpair.2⟩
  obtain ⟨once, honce, hwordsOnce⟩ := foldlM_replaceTerm_words regExpReplace canonicalize
    hcanon
    (glossary.filter fun g => g.sourceLang == sourceLang && g.targetLang == targetLang)
    (glossary.filter fun g => g.sourceLang == sourceLang && g.targetLang == targetLang)
    (fun e he => by
      obtain ⟨h1, h2, h3⟩ := hrel e he
      refine ⟨(hwords e h1 h2 h3).1, (hwords e h1 h2 h3).2, ?_⟩
      intro h hh
      obtain ⟨k1, k2, k3⟩ := hrel h hh
      exact hfresh e h1 h k1 h2 h3 k2 k3)
    [] text
    ((eachWord_true text.data).mono fun w _ =>
      Or.inl fun e he => absurd he (List.not_mem_nil e))
  refine ⟨once, honce, ?_⟩
  unfold applyGlossary
  rw [honce]
  apply foldlM_replaceTerm_words_fixed regExpReplace canonicalize hcanon
    (glossary.filter fun g => g.sourceLang == sourceLang && g.targetLang == targetLang)
  · intro e he
    obtain ⟨h1, h2, h3⟩ := hrel e he
    exact ⟨he, (hwords e h1 h2 h3).1, (hwords e h1 h2 h3).2⟩
  · refine hwordsOnce.mono fun w hw => ?_
    rcases hw with hw | hw
    · intro h hh
      exact hw h (by simpa using hh)
    · exact hw

theorem applyGlossary_twice_of_words_witness :
    (∀ g ∈ wordsGlossary, g.sourceLang = "en" → g.targetLang = "es" →
      isWord g.term = true ∧ isWord g.translation = true) ∧
    (∀ g ∈ wordsGlossary, ∀ h ∈ wordsGlossary,
      g.sourceLang = "en" → g.targetLang = "es" →
      h.sourceLang = "en" → h.targetLang = "es" →
      g.translation.data.map Char.toUpper ≠ h.term.data.map Char.toUpper) ∧
    applyGlossary rejectingEngine Char.toUpper "Hello big world" "en" "es" wordsGlossary =
      .ok "hola big mundo" ∧
    ∃ once,
      applyGlossary rejectingEngine Char.toUpper "Hello big world" "en" "es" wordsGlossary =
        .ok once ∧
      applyGlossary rejectingEngine Char.toUpper once "en" "es" wordsGlossary =
        applyGlossary rejectingEngine Char.toUpper "Hello big world" "en" "es"
          wordsGlossary :=
  ⟨by decide, by decide, by decide,
    applyGlossary_twice_of_words rejectingEngine Char.toUpper "Hello big world" "en" "es"
      wordsGlossary toUpper_keeps_word (by decide) (by decide)⟩

/-! ## Bounds of the quality score, stars -/

/-- C21: for every non-empty original and non-empty translation, `scoreTranslation`
returns a value between 70 and 100 inclusive. -/
theorem scoreTranslation_bounds (toUpperCase : String → String)
    (original translation sourceLang targetLang : String)
    (ho : original ≠ "") (ht : translation ≠ "") :
    ∃ score, scoreTranslation toUpperCase original translation sourceLang targetLang =
        some score ∧ 70 ≤ score ∧ score ≤ 100 := by
  obtain ⟨u, hu⟩ := firstIsOwnUpperCase_isSome toUpperCase original ho
  obtain ⟨v, hv⟩ := firstIsOwnUpperCase_isSome toUpperCase translation ht
  refine ⟨_, scoreTranslation_eq toUpperCase original translation sourceLang targetLang u v
    hu hv, ?_, Nat.min_le_left _ _⟩
  rw [Nat.le_min]
  constructor
  · decide
  · omega

theorem scoreTranslation_bounds_witness :
    ("Hello." : String) ≠ "" ∧ ("Hola." : String) ≠ "" ∧
    ∃ score, scoreTranslation asciiUpper "Hello." "Hola." "en" "es" = some score ∧
      70 ≤ score ∧ score ≤ 100 :=
  ⟨by decide, by decide,
    scoreTranslation_bounds asciiUpper "Hello." "Hola." "en" "es" (by decide) (by decide)⟩

/-- C22: for every score, `getStars(score)` is 5 if score >= 90, 4 if 75 <= score < 90,
3 if 60 <= score < 75, 2 if 45 <= score < 60, and 1 otherwise; `getStars` is monotone
non-decreasing in the score and always returns a value from 1 to 5. -/
theorem getStars_spec (score : ℚ) :
    (90 ≤ score → getStars score = 5) ∧
    (75 ≤ score → score < 90 → getStars score = 4) ∧
    (60 ≤ score → score < 75 → getStars score = 3) ∧
    (45 ≤ score → score < 60 → getStars score = 2) ∧
    (score < 45 → getStars score = 1) ∧
    (∀ other : ℚ, score ≤ other → getStars score ≤ getStars other) ∧
    1 ≤ getStars score ∧ getStars score ≤ 5 := by
  refine ⟨?_, ?_, ?_, ?_, ?_, ?_, ?_, ?_⟩
  · intro h
    simp [getStars, h]
  · intro h1 h2
    simp [getStars, h1, not_le.2 h2]
  · intro h1 h2
    have h3 : ¬ 90 ≤ score := by linarith
    simp [getStars, h1, not_le.2 h2, h3]
  · intro h1 h2
    have h3 : ¬ 90 ≤ score := by linarith
    have h4 : ¬ 75 ≤ score := by linarith
    simp [getStars, h1, not_le.2 h2, h3, h4]
  · intro h
    have h1 : ¬ 90 ≤ score := by linarith
    have h2 : ¬ 75 ≤ score := by linarith
    have h3 : ¬ 60 ≤ score := by linarith
    simp [getStars, not_le.2 h, h1, h2, h3]
  · intro other hle
    unfold getStars
    simp only [ge_iff_le]
    split_ifs <;> first | omega | (exfalso; linarith)
  · unfold getStars
    split_ifs <;> omega
  · unfold getStars
    split_ifs <;> omega

theorem getStars_spec_witness :
    getStars 95 = 5 ∧ getStars 80 = 4 ∧ getStars 60 = 3 ∧ getStars (119 / 2) = 2 ∧
    getStars 10 = 1 ∧ getStars 80 ≤ getStars 95 :=
  ⟨(getStars_spec 95).1 (by norm_num),
    (getStars_spec 80).2.1 (by norm_num) (by norm_num),
    (getStars_spec 60).2.2.1 (by norm_num) (by norm_num),
    (getStars_spec (119 / 2)).2.2.2.1 (by norm_num) (by norm_num),
    (getStars_spec 10).2.2.2.2.1 (by norm_num),
    (getStars_spec 80).2.2.2.2.2.1 95 (by norm_num)⟩

/-- C30: the capitalisation test of `scoreTranslation` asks only that the first character
is its own upper-casing. For an original and a translation that both begin with a digit,
a character that upper-casing and lower-casing leave alone, neither string begins with an
upper-case character, the test succeeds, and the score is the sum with the 5 points of the
capitalisation bonus in it. -/
theorem scoreTranslation_digit_bonus (toUpperCase toLowerCase : String → String)
    (original translation sourceLang targetLang : String) (c d : Char)
    (restOriginal restTranslation : List Char)
    (ho : original.data = c :: restOriginal) (ht : translation.data = d :: restTranslation)
    (hc : c.isDigit = true) (hd : d.isDigit = true)
    (hcu : toUpperCase (String.singleton c) = String.singleton c)
    (hdu : toUpperCase (String.singleton d) = String.singleton d)
    (hcl : toLowerCase (String.singleton c) = String.singleton c)
    (hdl : toLowerCase (String.singleton d) = String.singleton d) :
    beginsUpperCase toUpperCase toLowerCase original = false ∧
    beginsUpperCase toUpperCase toLowerCase translation = false ∧
    capitalizationCheck toUpperCase original translation = some true ∧
    scoreTranslation toUpperCase original translation sourceLang targetLang =
      some (min 100 (70 + lengthBonus original translation + wordBonus original translation +
        punctBonus original translation + 5)) := by
  have hdigit : ∀ x : Char, x.isDigit = true → x.toNat < 65536 := by
    intro x hx
    simp only [Char.isDigit, Bool.and_eq_true, decide_eq_true_eq] at hx
    have h2 : x.val.toNat ≤ 57 := UInt32.toNat_le_of_le (by decide) hx.2
    show x.val.toNat < 65536
    omega
  have hfo : firstIsOwnUpperCase toUpperCase original = some true := by
    unfold firstIsOwnUpperCase
    rw [ho]
    simp [hdigit c hc, hcu]
  have hft : firstIsOwnUpperCase toUpperCase translation = some true := by
    unfold firstIsOwnUpperCase
    rw [ht]
    simp [hdigit d hd, hdu]
  refine ⟨?_, ?_, ?_, ?_⟩
  · unfold beginsUpperCase
    rw [ho]
    simp [hcl]
  · unfold beginsUpperCase
    rw [ht]
    simp [hdl]
  · unfold capitalizationCheck
    rw [hfo, hft]
  · rw [scoreTranslation_eq toUpperCase original translation sourceLang targetLang true true
      hfo hft]
    simp

theorem scoreTranslation_digit_bonus_witness :
    beginsUpperCase asciiUpper asciiLower "3 apples" = false ∧
    beginsUpperCase asciiUpper asciiLower "3 manzanas" = false ∧
    capitalizationCheck asciiUpper "3 apples" "3 manzanas" = some true ∧
    scoreTranslation asciiUpper "3 apples" "3 manzanas" "en" "es" =
      some (min 100 (70 + lengthBonus "3 apples" "3 manzanas" +
        wordBonus "3 apples" "3 manzanas" + punctBonus "3 apples" "3 manzanas" + 5)) :=
  scoreTranslation_digit_bonus asciiUpper asciiLower "3 apples" "3 manzanas" "en" "es"
    '3' '3' " apples".data " manzanas".data (by decide) (by decide) (by decide) (by decide)
    (by decide) (by decide) (by decide) (by decide)

/-! ## A touched entry keeps its target -/

/-- C26: when `addToMemory` is called for a key that already has an entry, with whatever
target text, the first entry with that key keeps its stored target (and its id, source and
languages): only its frequency, increased by 1, and its `lastUsed` change, and the targets
stored in the memory are the same, position by position, as before the call. -/
theorem addToMemory_keeps_target (toLowerCase : String → String) (d : DateReads)
    (source target sourceLang targetLang : String) (memory : List MemoryEntry)
    (h : ∃ m ∈ memory, entryKey toLowerCase m = (toLowerCase source, sourceLang, targetLang)) :
    ∃ (i : Nat) (m : MemoryEntry), memory[i]? = some m ∧
      entryKey toLowerCase m = (toLowerCase source, sourceLang, targetLang) ∧
      (addToMemory toLowerCase d source target sourceLang targetLang memory)[i]? =
        some { id := m.id, source := m.source, target := m.target,
               sourceLang := m.sourceLang, targetLang := m.targetLang,
               frequency := m.frequency + 1, lastUsed := d.isoTouch } ∧
      (addToMemory toLowerCase d source target sourceLang targetLang memory).map
        (fun e => e.target) = memory.map (fun e => e.target) := by
  obtain ⟨x, hx, hkey⟩ := h
  obtain ⟨i, hi⟩ := findIndex_isSome_of_mem
    (matchesKey toLowerCase source sourceLang targetLang) memory x hx
    ((matchesKey_iff _ _ _ _ _).2 hkey)
  obtain ⟨m, hm, hpm, -⟩ := findIndex_some _ _ _ hi
  have hilt : i < memory.length := by
    by_contra hge
    rw [List.getElem?_eq_none (by omega)] at hm
    exact Option.noConfusion hm
  refine ⟨i, m, hm, (matchesKey_iff _ _ _ _ _).1 hpm, ?_, ?_⟩
  · rw [addToMemory_of_some _ _ _ _ _ _ _ i m hi hm]
    simp [List.getElem?_set, hilt]
  · rw [addToMemory_of_some _ _ _ _ _ _ _ i m hi hm]
    apply List.ext_getElem?
    intro j
    rw [List.getElem?_map, List.getElem?_map]
    by_cases hj : i = j
    · subst hj
      simp [List.getElem?_set, hilt, hm]
    · rw [List.getElem?_set_ne hj]

theorem addToMemory_keeps_target_witness :
    (∃ m ∈ sampleMemory, entryKey asciiLower m = (asciiLower "HELLO", "en", "fr")) ∧
    ∃ (i : Nat) (m : MemoryEntry), sampleMemory[i]? = some m ∧
      entryKey asciiLower m = (asciiLower "HELLO", "en", "fr") ∧
      (addToMemory asciiLower sampleDate "HELLO" "Salut" "en" "fr" sampleMemory)[i]? =
        some { id := m.id, source := m.source, target := m.target,
               sourceLang := m.sourceLang, targetLang := m.targetLang,
               frequency := m.frequency + 1, lastUsed := sampleDate.isoTouch } ∧
      (addToMemory asciiLower sampleDate "HELLO" "Salut" "en" "fr" sampleMemory).map
        (fun e => e.target) = sampleMemory.map (fun e => e.target) :=
  ⟨by decide,
    addToMemory_keeps_target asciiLower sampleDate "HELLO" "Salut" "en" "fr" sampleMemory
      (by decide)⟩

/-! ## Language detection confidence -/

/-- The value before the clamp lies between 35 and 90. -/
theorem confidenceBeforeClamp_bounds (text : String) :
    35 ≤ confidenceBeforeClamp text ∧ confidenceBeforeClamp text ≤ 90 := by
  unfold confidenceBeforeClamp
  simp only
  split_ifs <;> omega

/-- C23 at the text `[привет]`, Cyrillic letters between square brackets: the range tested
for latin, 0x41 to 0x7A, holds the two brackets, which are no letters, so `detectScripts`
returns latin and cyrillic and `calculateConfidence` is 35, with the 15 for mixed scripts
taken off a text whose letters are all Cyrillic. At the text `éя`, a Latin letter outside
that range and a Cyrillic letter, `detectScripts` returns cyrillic alone and nothing is
taken off: the result is 50. -/
theorem calculateConfidence_brackets :
    detectScripts "[привет]" = ["latin", "cyrillic"] ∧
    calculateConfidence "[привет]" "ru" = 35 ∧
    scriptOfCode (charCodeAt0 '[') = some "latin" ∧
    scriptOfCode (charCodeAt0 ']') = some "latin" ∧
    Char.isAlpha '[' = false ∧ Char.isAlpha ']' = false ∧
    (∀ c ∈ "привет".data, scriptOfCode (charCodeAt0 c) = some "cyrillic") ∧
    utf16Length "[привет]" = 8 ∧
    detectScripts "éя" = ["cyrillic"] ∧
    scriptOfCode (charCodeAt0 'é') = none ∧
    calculateConfidence "éя" "ru" = 50 := by
  decide

/-- C27: for every text, the value computed by `calculateConfidence` before the clamp
lies between 35 and 90, the clamp to the interval from 0 to 100 does not change it, and
`calculateConfidence` returns a value between 35 and 90. -/
theorem calculateConfidence_range (text detectedLang : String) :
    35 ≤ confidenceBeforeClamp text ∧ confidenceBeforeClamp text ≤ 90 ∧
    calculateConfidence text detectedLang = confidenceBeforeClamp text ∧
    35 ≤ calculateConfidence text detectedLang ∧ calculateConfidence text detectedLang ≤ 90 := by
  obtain ⟨h1, h2⟩ := confidenceBeforeClamp_bounds text
  have h : calculateConfidence text detectedLang = confidenceBeforeClamp text := by
    unfold calculateConfidence
    omega
  refine ⟨h1, h2, h, ?_, ?_⟩ <;> omega

/-! ## The translation request -/

/-- C24: for every response that is ok and whose first element is a list of segments,
`translateSingle` returns the concatenation, in segment order and with no separator, of
the first element of each segment; when the response is not ok, `translateSingle` fails
(with the message `Translation failed`) and returns no string. -/
theorem translateSingle_spec (encodeURIComponent : String → String)
    (fetch : String → Except String Response) (text sourceLang targetLang : String)
    (res : Response)
    (hres : fetch (requestUrl encodeURIComponent text sourceLang targetLang) = .ok res) :
    (res.ok = true → ∀ segments, res.json = .ok segments →
      translateSingle encodeURIComponent fetch text sourceLang targetLang =
        .ok (String.join (segments.map fragmentOf))) ∧
    (res.ok = false →
      translateSingle encodeURIComponent fetch text sourceLang targetLang =
        .error "Translation failed") := by
  constructor
  · intro hok segments hjson
    simp [translateSingle, hres, hok, hjson]
  · intro hok
    simp [translateSingle, hres, hok]

theorem translateSingle_spec_witness :
    translateSingle id sampleFetch "Hello world" "en" "es" = .ok "Hola mundo" ∧
    translateSingle id failingFetch "Hello world" "en" "es" = .error "Translation failed" :=
  ⟨(translateSingle_spec id sampleFetch "Hello world" "en" "es"
      { ok := true, json := .ok [[some "Hola ", some "Hello "], [some "mundo", none]] }
      rfl).1 rfl [[some "Hola ", some "Hello "], [some "mundo", none]] rfl,
    (translateSingle_spec id failingFetch "Hello world" "en" "es"
      { ok := false, json := .error "Unexpected token" } rfl).2 rfl⟩

/-! ## Chunks of a text -/

theorem splitSpace_ne_nil (l : List Char) : splitSpace l ≠ [] := by
  cases l with
  | nil => simp [splitSpace]
  | cons c rest =>
    simp only [splitSpace]
    split
    · simp
    · split <;> simp

theorem joinSpace_cons_of_ne_nil (w : List Char) (ws : List (List Char)) (h : ws ≠ []) :
    joinSpace (w :: ws) = w ++ ' ' :: joinSpace ws := by
  cases ws with
  | nil => exact absurd rfl h
  | cons v rest => rfl

theorem joinSpace_cons_head (c : Char) (w : List Char) (ws : List (List Char)) :
    joinSpace ((c :: w) :: ws) = c :: joinSpace (w :: ws) := by
  cases ws with
  | nil => rfl
  | cons v rest => rfl

/-- Joining the words of a text with single spaces gives the text back. -/
theorem joinSpace_splitSpace (l : List Char) : joinSpace (splitSpace l) = l := by
  induction l with
  | nil => rfl
  | cons c rest ih =>
    simp only [splitSpace]
    split
    · rename_i hc
      rw [joinSpace_cons_of_ne_nil _ _ (splitSpace_ne_nil rest), ih, hc]
      rfl
    · cases hs : splitSpace rest with
      | nil => exact absurd hs (splitSpace_ne_nil rest)
      | cons w ws =>
        simp only
        rw [joinSpace_cons_head, ← hs, ih]

/-- A text without a space is one word; a text with a space is more than one word. -/
theorem length_splitSpace (l : List Char) :
    (' ' ∉ l → (splitSpace l).length = 1) ∧ (' ' ∈ l → 2 ≤ (splitSpace l).length) := by
  induction l with
  | nil => simp [splitSpace]
  | cons c rest ih =>
    have hpos : 1 ≤ (splitSpace rest).length :=
      List.length_pos.2 (splitSpace_ne_nil rest)
    simp only [splitSpace]
    split
    · rename_i hc
      subst hc
      constructor
      · intro h
        exact absurd (List.mem_cons_self _ _) h
      · intro _
        simp only [List.length_cons]
        omega
    · rename_i hc
      cases hs : splitSpace rest with
      | nil => exact absurd hs (splitSpace_ne_nil rest)
      | cons w ws =>
        rw [hs] at ih
        simp only [List.length_cons] at ih ⊢
        constructor
        · intro h
          exact ih.1 fun hmem => h (List.mem_cons_of_mem _ hmem)
        · intro h
          rcases List.mem_cons.1 h with h | h
          · exact absurd h.symm hc
          · exact ih.2 h

theorem joinSpace_append (a b : List (List Char)) (ha : a ≠ []) (hb : b ≠ []) :
    joinSpace (a ++ b) = joinSpace a ++ ' ' :: joinSpace b := by
  induction a with
  | nil => exact absurd rfl ha
  | cons w rest ih =>
    cases rest with
    | nil =>
      rw [List.singleton_append, joinSpace_cons_of_ne_nil _ _ hb]
      rfl
    | cons v rest2 =>
      show w ++ ' ' :: joinSpace (v :: rest2 ++ b) =
        (w ++ ' ' :: joinSpace (v :: rest2)) ++ ' ' :: joinSpace b
      rw [ih (by simp)]
      simp

/-- The loop on one word: one chunk, the word. -/
theorem chunkLoop_one (w : List Char) (fuel : Nat) :
    chunkLoop [w] 1 (fuel + 2) 0 [] = some [w] := by
  simp [chunkLoop, joinSpace]

/-- The loop on two words or more: two chunks, the first half and the rest. -/
theorem chunkLoop_two (words : List (List Char)) (fuel : Nat) (h : 2 ≤ words.length) :
    chunkLoop words ((words.length + 1) / 2) (fuel + 3) 0 [] =
      some [joinSpace (words.take ((words.length + 1) / 2)),
        joinSpace (words.drop ((words.length + 1) / 2))] := by
  have h1 : 0 < words.length := by omega
  have h2 : (words.length + 1) / 2 < words.length := by omega
  have h3 : ¬ ((words.length + 1) / 2 + (words.length + 1) / 2 < words.length) := by omega
  have h4 : (words.drop ((words.length + 1) / 2)).take ((words.length + 1) / 2) =
      words.drop ((words.length + 1) / 2) := by
    apply List.take_of_length_le
    rw [List.length_drop]
    omega
  simp [chunkLoop, h1, h2, h3, h4]

/-- C29: for every text, `chunkText` terminates (three rounds of its loop are enough, and
more fuel changes nothing) and returns one chunk if the text contains no space and exactly
two chunks otherwise, so at most two; joining the returned chunks with a single space
gives back the text. -/
theorem chunkText_spec (text : String) (fuel : Nat) (hfuel : 3 ≤ fuel) :
    ∃ chunks, chunkText fuel text = some chunks ∧
      (' ' ∉ text.data → chunks.length = 1) ∧
      (' ' ∈ text.data → chunks.length = 2) ∧
      chunks.length ≤ 2 ∧
      String.mk (joinSpace (chunks.map String.data)) = text := by
  obtain ⟨f, rfl⟩ : ∃ f, fuel = f + 3 := ⟨fuel - 3, by omega⟩
  have hlen := length_splitSpace text.data
  have hjoin := joinSpace_splitSpace text.data
  by_cases hspace : ' ' ∈ text.data
  · have h2 := hlen.2 hspace
    have hk1 : 0 < (splitSpace text.data).length + 1 := by omega
    refine ⟨[String.mk (joinSpace ((splitSpace text.data).take
        (((splitSpace text.data).length + 1) / 2))),
      String.mk (joinSpace ((splitSpace text.data).drop
        (((splitSpace text.data).length + 1) / 2)))], ?_, ?_, ?_, ?_, ?_⟩
    · simp only [chunkText]
      rw [chunkLoop_two _ f h2]
      rfl
    · intro h
      exact absurd hspace h
    · intro _
      rfl
    · simp
    · simp only [List.map_cons, List.map_nil]
      have ha : (splitSpace text.data).take (((splitSpace text.data).length + 1) / 2) ≠ [] := by
        intro h
        have := congrArg List.length h
        rw [List.length_take] at this
        simp only [List.length_nil] at this
        omega
      have hb : (splitSpace text.data).drop (((splitSpace text.data).length + 1) / 2) ≠ [] := by
        intro h
        have := congrArg List.length h
        rw [List.length_drop] at this
        simp only [List.length_nil] at this
        omega
      have happ := joinSpace_append _ _ ha hb
      rw [List.take_append_drop, hjoin] at happ
      show String.mk (joinSpace [_, _]) = text
      rw [joinSpace, joinSpace, ← happ]
  · have h1 := hlen.1 hspace
    obtain ⟨w, hw⟩ : ∃ w, splitSpace text.data = [w] := by
      cases hs : splitSpace text.data with
      | nil => exact absurd hs (splitSpace_ne_nil _)
      | cons w ws =>
        rw [hs] at h1
        cases ws with
        | nil => exact ⟨w, rfl⟩
        | cons v rest => simp at h1
    refine ⟨[String.mk w], ?_, ?_, ?_, ?_, ?_⟩
    · simp only [chunkText, hw]
      have := chunkLoop_one w (f + 1)
      simp only [List.length_singleton] at this ⊢
      rw [this]
      rfl
    · intro _
      rfl
    · intro h
      exact absurd h hspace
    · simp
    · rw [hw] at hjoin
      simp only [List.map_cons, List.map_nil]
      show String.mk (joinSpace [w]) = text
      rw [hjoin]

theorem chunkText_spec_witness :
    3 ≤ 5 ∧
    ∃ chunks, chunkText 5 "the quick brown fox jumps" = some chunks ∧
      (' ' ∉ "the quick brown fox jumps".data → chunks.length = 1) ∧
      (' ' ∈ "the quick brown fox jumps".data → chunks.length = 2) ∧
      chunks.length ≤ 2 ∧
      String.mk (joinSpace (chunks.map String.data)) = "the quick brown fox jumps" :=
  ⟨by decide, chunkText_spec "the quick brown fox jumps" 5 (by decide)⟩

/-- The chunks of a text of five words: the first three words and the last two. -/
theorem chunkText_five_words :
    chunkText 5 "the quick brown fox jumps" = some ["the quick brown", "fox jumps"] ∧
    chunkText 5 "hello" = some ["hello"] ∧ chunkText 5 "" = some [""] ∧
    chunkText 5 "a  b" = some ["a ", "b"] := by
  decide

/-! ## Replacing a literal pattern: the scan as equations -/

theorem matchesAt_unbounded (canonicalize : Char → Char) (term before rest : List Char) :
    matchesAt false canonicalize term before rest = prefixMatch canonicalize term rest := by
  simp [matchesAt]

theorem prefixMatch_nil_right (term : List Char) (h : term ≠ []) :
    prefixMatch id term [] = false := by
  cases term with
  | nil => exact absurd rfl h
  | cons t ts => rfl

/-- For a pattern without `\b` the text to the left of the position plays no part. -/
theorem replaceLoop_before (term replacement : List Char) (skip : Nat)
    (before other rest : List Char) :
    replaceLoop false id term (fun _ _ _ => replacement) skip before rest =
      replaceLoop false id term (fun _ _ _ => replacement) skip other rest := by
  induction rest generalizing skip before other with
  | nil =>
    cases skip with
    | zero => simp [replaceLoop, matchesAt_unbounded]
    | succ k => simp [replaceLoop]
  | cons c cs ih =>
    cases skip with
    | zero =>
      simp only [replaceLoop, matchesAt_unbounded]
      rw [ih 0 (before ++ [c]) (other ++ [c]),
        ih (term.length - 1) (before ++ [c]) (other ++ [c])]
    | succ k =>
      simp only [replaceLoop]
      exact ih k _ _

/-- Passing the characters of a match is dropping them. -/
theorem replaceLoop_skip (term replacement : List Char) (hterm : term ≠ []) (skip : Nat)
    (before rest : List Char) :
    replaceLoop false id term (fun _ _ _ => replacement) skip before rest =
      plainReplace term replacement (rest.drop skip) := by
  induction skip generalizing before rest with
  | zero => exact replaceLoop_before term replacement 0 before [] rest
  | succ k ih =>
    cases rest with
    | nil =>
      simp [replaceLoop, plainReplace, matchesAt_unbounded, prefixMatch_nil_right term hterm]
    | cons c cs =>
      simp only [replaceLoop, List.drop_succ_cons]
      exact ih _ _

theorem plainReplace_nil (term replacement : List Char) (hterm : term ≠ []) :
    plainReplace term replacement [] = [] := by
  simp [plainReplace, replaceLoop, matchesAt_unbounded, prefixMatch_nil_right term hterm]

/-- Where the pattern matches, the replacement is put and the scan goes on after the
match. -/
theorem plainReplace_of_match (term replacement text : List Char) (hterm : term ≠ [])
    (h : prefixMatch id term text = true) :
    plainReplace term replacement text =
      replacement ++ plainReplace term replacement (text.drop term.length) := by
  cases text with
  | nil =>
    rw [prefixMatch_nil_right term hterm] at h
    exact Bool.noConfusion h
  | cons c cs =>
    have hlen : term.length ≠ 0 := fun h0 => hterm (List.length_eq_zero.1 h0)
    obtain ⟨n, hn⟩ : ∃ n, term.length = n + 1 := ⟨term.length - 1, by omega⟩
    unfold plainReplace
    simp only [replaceLoop, matchesAt_unbounded, h, if_true, hlen, if_false]
    rw [replaceLoop_skip term replacement hterm, hn]
    simp [plainReplace]

/-- Where the pattern does not match, the character is kept. -/
theorem plainReplace_of_no_match (term replacement : List Char) (c : Char) (cs : List Char)
    (h : prefixMatch id term (c :: cs) = false) :
    plainReplace term replacement (c :: cs) = c :: plainReplace term replacement cs := by
  unfold plainReplace
  simp only [replaceLoop, matchesAt_unbounded, h, Bool.false_eq_true, if_false]
  rw [replaceLoop_before term replacement 0 ([] ++ [c]) [] cs]

theorem prefixMatch_iff_starts (term text : List Char) :
    prefixMatch id term text = true ↔ term <+: text := by
  induction term generalizing text with
  | nil => simp [prefixMatch]
  | cons t ts ih =>
    cases text with
    | nil => simp [prefixMatch]
    | cons c cs =>
      simp only [prefixMatch, Bool.and_eq_true, id, beq_iff_eq, ih, List.cons_prefix_cons]

theorem prefixMatch_append (term text more : List Char)
    (h : prefixMatch id term text = true) : prefixMatch id term (text ++ more) = true := by
  rw [prefixMatch_iff_starts] at h ⊢
  exact h.trans (List.prefix_append _ _)

/-- A text in which the pattern occurs nowhere is left as it is. -/
theorem plainReplace_of_absent (term replacement text : List Char) (hterm : term ≠ [])
    (h : ¬ term <:+: text) : plainReplace term replacement text = text := by
  induction text with
  | nil => exact plainReplace_nil term replacement hterm
  | cons c cs ih =>
    have hno : prefixMatch id term (c :: cs) = false := by
      cases hp : prefixMatch id term (c :: cs) with
      | false => rfl
      | true => exact absurd ((prefixMatch_iff_starts _ _).1 hp).isInfix h
    rw [plainReplace_of_no_match term replacement c cs hno,
      ih fun hin => h (hin.trans (List.suffix_cons c cs).isInfix)]

/-- The replacement of a text made of two parts is made of the replacements of the parts
when no match begins in the first part and ends in the second. -/
theorem plainReplace_append (term replacement : List Char) (hterm : term ≠ [])
    (first second : List Char)
    (h : ∀ u, u ≠ [] → u <:+ first → prefixMatch id term (u ++ second) = true →
      prefixMatch id term u = true) :
    plainReplace term replacement (first ++ second) =
      plainReplace term replacement first ++ plainReplace term replacement second := by
  generalize hn : first.length = n
  induction n using Nat.strong_induction_on generalizing first with
  | _ n ih =>
    cases first with
    | nil => rw [plainReplace_nil term replacement hterm, List.nil_append, List.nil_append]
    | cons c cs =>
      cases hp : prefixMatch id term ((c :: cs) ++ second) with
      | true =>
        have hfirst := h (c :: cs) (by simp) (List.suffix_refl _) hp
        obtain ⟨tail, htail⟩ := (prefixMatch_iff_starts _ _).1 hfirst
        rw [plainReplace_of_match term replacement _ hterm hp,
          plainReplace_of_match term replacement _ hterm hfirst, ← htail]
        have hd1 : (term ++ tail ++ second).drop term.length = tail ++ second := by
          rw [List.append_assoc, List.drop_left]
        have hd2 : (term ++ tail).drop term.length = tail := List.drop_left _ _
        rw [hd1, hd2, List.append_assoc]
        congr 1
        have hlen : tail.length < n := by
          have := congrArg List.length htail
          rw [List.length_append, hn] at this
          have hpos : 0 < term.length := List.length_pos.2 hterm
          omega
        refine ih tail.length hlen tail ?_ rfl
        intro u hu hsuf hm
        exact h u hu (hsuf.trans (htail ▸ List.suffix_append term tail)) hm
      | false =>
        have hno : prefixMatch id term (c :: cs) = false := by
          cases hq : prefixMatch id term (c :: cs) with
          | false => rfl
          | true =>
            rw [prefixMatch_append term (c :: cs) second hq] at hp
            exact Bool.noConfusion hp
        rw [List.cons_append] at hp ⊢
        rw [plainReplace_of_no_match term replacement c _ hp,
          plainReplace_of_no_match term replacement c cs hno, List.cons_append]
        congr 1
        have hlen : cs.length < n := by
          rw [← hn, List.length_cons]
          omega
        refine ih cs.length hlen cs ?_ rfl
        intro u hu hsuf hm
        exact h u hu (hsuf.trans (List.suffix_cons c cs)) hm

/-- A replacement string without a dollar sign: `replaceLiteral` is `plainReplace`. -/
theorem replaceLiteral_eq_plainReplace (term replacement text : String)
    (h : ∀ c ∈ replacement.data, c.toNat ≠ 36) :
    replaceLiteral false id term replacement text =
      String.mk (plainReplace term.data replacement.data text.data) := by
  have hsub : (fun isMatched before after : List Char =>
      getSubstitution isMatched before after replacement.data) =
      fun _ _ _ => replacement.data := by
    funext isMatched before after
    exact getSubstitution_of_no_dollar _ _ _ _ h
  unfold replaceLiteral plainReplace
  rw [hsub]

/-- No match begins in the first part and ends in the second when the second part begins
with a character that the pattern has only, if at all, in its first place. -/
theorem no_straddle (term first second : List Char) (x : Char) (rest : List Char)
    (hsecond : second = x :: rest)
    (hx : ∀ k, 0 < k → term[k]? ≠ some x) :
    ∀ u, u ≠ [] → u <:+ first → prefixMatch id term (u ++ second) = true →
      prefixMatch id term u = true := by
  intro u hu _ hm
  rw [prefixMatch_iff_starts] at hm ⊢
  by_cases hlen : term.length ≤ u.length
  · exact List.prefix_of_prefix_length_le hm (List.prefix_append _ _) hlen
  · exfalso
    obtain ⟨tail, htail⟩ := hm
    have hpos : 0 < u.length := List.length_pos.2 hu
    have h1 : (u ++ second)[u.length]? = some x := by
      rw [List.getElem?_append_right (Nat.le_refl _), Nat.sub_self, hsecond]
      simp
    have h2 : (term ++ tail)[u.length]? = term[u.length]? :=
      List.getElem?_append_left (by omega)
    rw [← htail, h2] at h1
    exact hx u.length hpos h1

/-! ## German: the second substitution never fires -/

theorem plainReplace_ch_head (text : List Char)
    (h : (plainReplace ['c', 'h'] ['χ'] text).head? = some 'h') : text.head? = some 'h' := by
  cases text with
  | nil =>
    rw [plainReplace_nil _ _ (by simp)] at h
    exact Option.noConfusion h
  | cons x rest =>
    cases hp : prefixMatch id ['c', 'h'] (x :: rest) with
    | true =>
      rw [plainReplace_of_match _ _ _ (by simp) hp] at h
      simp at h
    | false =>
      rw [plainReplace_of_no_match _ _ x rest hp] at h
      exact h

/-- After every `ch` has been replaced, the text contains no `ch`. -/
theorem plainReplace_ch_no_ch (text : List Char) :
    ¬ ['c', 'h'] <:+: plainReplace ['c', 'h'] ['χ'] text := by
  generalize hn : text.length = n
  induction n using Nat.strong_induction_on generalizing text with
  | _ n ih =>
    cases text with
    | nil =>
      rw [plainReplace_nil _ _ (by simp)]
      simp
    | cons x rest =>
      cases hp : prefixMatch id ['c', 'h'] (x :: rest) with
      | true =>
        obtain ⟨tail, htail⟩ := (prefixMatch_iff_starts _ _).1 hp
        rw [plainReplace_of_match _ _ _ (by simp) hp, ← htail]
        have hd : (['c', 'h'] ++ tail).drop ['c', 'h'].length = tail := List.drop_left _ _
        rw [hd]
        have hlen : tail.length < n := by
          have := congrArg List.length htail
          simp only [List.length_append, List.length_cons, List.length_nil] at this hn
          omega
        intro hin
        rcases List.infix_cons_iff.1 hin with hpre | hin2
        · simp at hpre
        · exact ih tail.length hlen tail rfl hin2
      | false =>
        rw [plainReplace_of_no_match _ _ x rest hp]
        have hlen : rest.length < n := by
          rw [← hn, List.length_cons]
          omega
        intro hin
        rcases List.infix_cons_iff.1 hin with hpre | hin2
        · rw [List.cons_prefix_cons] at hpre
          obtain ⟨hx, hrest⟩ := hpre
          have hhead : (plainReplace ['c', 'h'] ['χ'] rest).head? = some 'h' := by
            obtain ⟨t, ht⟩ := hrest
            rw [← ht]
            rfl
          have hrest2 := plainReplace_ch_head rest hhead
          cases rest with
          | nil => exact Option.noConfusion hrest2
          | cons y ys =>
            simp only [List.head?_cons, Option.some.injEq] at hrest2
            subst hx hrest2
            simp [prefixMatch] at hp
        · exact ih rest.length hlen rest rfl hin2

/-- C28: in `germanPronunciation` the second substitution, `sch` to `ʃ`, never fires: for
every text, after every `ch` of the lower-cased text has been replaced by `χ` the string
contains no `sch`, and `germanPronunciation(text)` is the lower-cased text with only the
substitution of `χ` for `ch` applied. -/
theorem germanPronunciation_only_ch (toLowerCase : String → String) (text : String) :
    ¬ "sch".data <:+: (replaceLiteral false id "ch" "χ" (toLowerCase text)).data ∧
    germanPronunciation toLowerCase text =
      replaceLiteral false id "ch" "χ" (toLowerCase text) := by
  have hch : replaceLiteral false id "ch" "χ" (toLowerCase text) =
      String.mk (plainReplace ['c', 'h'] ['χ'] (toLowerCase text).data) :=
    replaceLiteral_eq_plainReplace "ch" "χ" (toLowerCase text) (by decide)
  have hno : ¬ ['s', 'c', 'h'] <:+: plainReplace ['c', 'h'] ['χ'] (toLowerCase text).data := by
    intro hin
    have hsuf : ['c', 'h'] <:+: ['s', 'c', 'h'] := (List.suffix_cons 's' ['c', 'h']).isInfix
    exact plainReplace_ch_no_ch _ (hsuf.trans hin)
  constructor
  · rw [hch]
    exact hno
  · unfold germanPronunciation
    rw [replaceLiteral_eq_plainReplace "sch" "ʃ" _ (by decide), hch]
    exact congrArg String.mk (plainReplace_of_absent ['s', 'c', 'h'] ['ʃ'] _ (by simp) hno)

/-! ## English: what becomes of `tion` -/

theorem englishPronunciation_eq (toLowerCase : String → String) (text : String) :
    englishPronunciation toLowerCase text =
      String.mk (englishSubstitutions (toLowerCase text).data) := by
  unfold englishPronunciation englishSubstitutions
  rw [replaceLiteral_eq_plainReplace "tion" "shun" _ (by decide),
    replaceLiteral_eq_plainReplace "th" "θ" _ (by decide),
    replaceLiteral_eq_plainReplace "ch" "tʃ" _ (by decide),
    replaceLiteral_eq_plainReplace "sh" "ʃ" _ (by decide)]

/-- The first substitution around an occurrence of `tion`. -/
theorem plainReplace_tion_append (pre post : List Char) :
    plainReplace ['t', 'i', 'o', 'n'] ['s', 'h', 'u', 'n']
        (pre ++ ('t' :: 'i' :: 'o' :: 'n' :: post)) =
      plainReplace ['t', 'i', 'o', 'n'] ['s', 'h', 'u', 'n'] pre ++
        ('s' :: 'h' :: 'u' :: 'n' ::
          plainReplace ['t', 'i', 'o', 'n'] ['s', 'h', 'u', 'n'] post) := by
  have hx : ∀ k, 0 < k → ['t', 'i', 'o', 'n'][k]? ≠ some 't' := by
    intro k hk
    rcases k with _ | _ | _ | _ | k
    · omega
    all_goals simp
  rw [plainReplace_append _ _ (by simp) pre _ (no_straddle _ pre _ 't' _ rfl hx),
    plainReplace_of_match _ _ ('t' :: 'i' :: 'o' :: 'n' :: post) (by simp)
      (by simp [prefixMatch])]
  rfl

/-- A substitution whose pattern has two characters, the second of them `h`, around the
`shun` put by the first substitution, when the pattern begins neither with `s` nor with
`n`. -/
theorem plainReplace_h_around_shun (p : Char) (replacement first last : List Char)
    (hp : p ≠ 's') (hpn : p ≠ 'n') :
    plainReplace [p, 'h'] replacement (first ++ ('s' :: 'h' :: 'u' :: 'n' :: last)) =
      plainReplace [p, 'h'] replacement first ++
        ('s' :: 'h' :: 'u' :: 'n' :: plainReplace [p, 'h'] replacement last) := by
  have hx : ∀ k, 0 < k → [p, 'h'][k]? ≠ some 's' := by
    intro k hk
    rcases k with _ | _ | k
    · omega
    all_goals simp
  have hps : (p == 's') = false := by simpa using hp
  rw [plainReplace_append _ _ (by simp) first _ (no_straddle _ first _ 's' _ rfl hx),
    plainReplace_of_no_match _ _ 's' _ (by simp [prefixMatch, hps]),
    plainReplace_of_no_match _ _ 'h' _ (by simp [prefixMatch]),
    plainReplace_of_no_match _ _ 'u' _ (by simp [prefixMatch]),
    plainReplace_of_no_match _ _ 'n' _ (by
      cases last with
      | nil => simp [prefixMatch]
      | cons y ys => simp [prefixMatch, hpn])]

/-- The last substitution around the `shun` put by the first one. -/
theorem plainReplace_sh_around_shun (first last : List Char) :
    plainReplace ['s', 'h'] ['ʃ'] (first ++ ('s' :: 'h' :: 'u' :: 'n' :: last)) =
      plainReplace ['s', 'h'] ['ʃ'] first ++
        ('ʃ' :: 'u' :: 'n' :: plainReplace ['s', 'h'] ['ʃ'] last) := by
  have hx : ∀ k, 0 < k → ['s', 'h'][k]? ≠ some 's' := by
    intro k hk
    rcases k with _ | _ | k
    · omega
    all_goals simp
  rw [plainReplace_append _ _ (by simp) first _ (no_straddle _ first _ 's' _ rfl hx),
    plainReplace_of_match _ _ ('s' :: 'h' :: 'u' :: 'n' :: last) (by simp)
      (by simp [prefixMatch])]
  have hd : ('s' :: 'h' :: 'u' :: 'n' :: last).drop ['s', 'h'].length = 'u' :: 'n' :: last :=
    rfl
  rw [hd, plainReplace_of_no_match _ _ 'u' _ (by simp [prefixMatch]),
    plainReplace_of_no_match _ _ 'n' _ (by
      cases last with
      | nil => simp [prefixMatch]
      | cons y ys => simp [prefixMatch])]
  rfl

/-- Every occurrence of `tion` comes out as `ʃun`, between the outcomes of the text to its
left and of the text to its right. -/
theorem englishSubstitutions_tion (pre post : List Char) :
    englishSubstitutions (pre ++ ('t' :: 'i' :: 'o' :: 'n' :: post)) =
      englishSubstitutions pre ++ ('ʃ' :: 'u' :: 'n' :: englishSubstitutions post) := by
  unfold englishSubstitutions
  show plainReplace ['s', 'h'] ['ʃ'] (plainReplace ['c', 'h'] ['t', 'ʃ']
      (plainReplace ['t', 'h'] ['θ'] (plainReplace ['t', 'i', 'o', 'n'] ['s', 'h', 'u', 'n']
        (pre ++ ('t' :: 'i' :: 'o' :: 'n' :: post))))) =
    plainReplace ['s', 'h'] ['ʃ'] (plainReplace ['c', 'h'] ['t', 'ʃ']
      (plainReplace ['t', 'h'] ['θ']
        (plainReplace ['t', 'i', 'o', 'n'] ['s', 'h', 'u', 'n'] pre))) ++
      ('ʃ' :: 'u' :: 'n' :: plainReplace ['s', 'h'] ['ʃ'] (plainReplace ['c', 'h'] ['t', 'ʃ']
        (plainReplace ['t', 'h'] ['θ']
          (plainReplace ['t', 'i', 'o', 'n'] ['s', 'h', 'u', 'n'] post))))
  rw [plainReplace_tion_append, plainReplace_h_around_shun 't' _ _ _ (by decide) (by decide),
    plainReplace_h_around_shun 'c' _ _ _ (by decide) (by decide),
    plainReplace_sh_around_shun]

/-- C25, as stated, fails: for the text nation the output is `naʃun`, not `nashun`; the
`shun` put for `tion` does not appear in the output. -/
theorem generatePronunciation_nation :
    generatePronunciation asciiLower sampleInheritedCall "nation" "en" = .ok "naʃun" ∧
    generatePronunciation asciiLower sampleInheritedCall "nation" "en" ≠ .ok "nashun" ∧
    ¬ "shun".data <:+: "naʃun".data := by
  decide

/-- C25, amended: for English, for every text, each occurrence of `tion` in the
lower-cased text appears as `ʃun` in the output, between what the four substitutions make
of the text to its left and of the text to its right (`shun` is put for `tion`, and the
last substitution puts `ʃ` for its `sh`); for every language code that is neither a key of
the table nor the name of a property that every object inherits, the output is the
original text unchanged between `[` and `]`. -/
theorem generatePronunciation_spec (toLowerCase : String → String)
    (inheritedCall : String → String → Except String String) (text language : String) :
    (∀ pre post : List Char, (toLowerCase text).data = pre ++ "tion".data ++ post →
      generatePronunciation toLowerCase inheritedCall text "en" =
        .ok (String.mk
          (englishSubstitutions pre ++ "ʃun".data ++ englishSubstitutions post))) ∧
    (language ∉ pronunciationKeys → language ∉ inheritedKeys →
      generatePronunciation toLowerCase inheritedCall text language =
        .ok ("[" ++ text ++ "]")) := by
  constructor
  · intro pre post h
    have hen : generatePronunciation toLowerCase inheritedCall text "en" =
        .ok (englishPronunciation toLowerCase text) := rfl
    rw [hen, englishPronunciation_eq, h]
    have := englishSubstitutions_tion pre post
    simp only [List.append_assoc] at this ⊢
    exact congrArg (fun l => Except.ok (String.mk l)) this
  · intro hk hi
    simp only [pronunciationKeys, List.mem_cons, List.mem_singleton, List.not_mem_nil,
      or_false, not_or] at hk
    obtain ⟨h1, h2, h3, h4, h5, h6, h7, h8⟩ := hk
    simp [generatePronunciation, h1, h2, h3, h4, h5, h6, h7, h8, hi, bracketed]

theorem generatePronunciation_spec_witness :
    generatePronunciation asciiLower sampleInheritedCall "Nations" "en" =
      .ok (String.mk
        (englishSubstitutions "na".data ++ "ʃun".data ++ englishSubstitutions "s".data)) ∧
    generatePronunciation asciiLower sampleInheritedCall "Nations" "it" =
      .ok ("[" ++ "Nations" ++ "]") :=
  ⟨(generatePronunciation_spec asciiLower sampleInheritedCall "Nations" "it").1
      "na".data "s".data (by decide),
    (generatePronunciation_spec asciiLower sampleInheritedCall "Nations" "it").2
      (by decide) (by decide)⟩

end LanguageTranslator
